import Mathlib

/-!
Verification of the vergesort hybrid sort (`vergesort.h`).

The algorithm is embedded shallowly: the caller's random-access sequence is a
`List α`, iterators are natural-number indices into it, and each C++ routine
becomes a Lean function on indices.  The fallback sub-sort `pdqsort` and the
standard-library primitives `std::inplace_merge` / `std::reverse` live outside
`vergesort.h`; they are modelled from the spec's collaborator contracts
(section 6 of the spec), everything else is translated directly from the
source of `vergesort.h`.
-/

namespace Vergesort

/-- A strict weak ordering, the comparator contract from the spec's data model:
`compare a b` means "a ranks before b"; it is irreflexive, transitive, and the
negated relation is transitive as well (equivalently, incomparability is
transitive). -/
structure IsStrictWeakOrder (compare : α → α → Bool) : Prop where
  irrefl : ∀ a, compare a a = false
  lt_trans : ∀ a b c, compare a b = true → compare b c = true → compare a c = true
  nlt_trans : ∀ a b c, compare a b = false → compare b c = false → compare a c = false

/-- The non-strict order induced by a comparator: `Asc compare a b` holds when
`a` may appear (weakly) before `b` in a sorted arrangement, i.e. `b` does not
rank strictly before `a`. -/
def Asc (compare : α → α → Bool) (a b : α) : Prop := compare b a = false

theorem IsStrictWeakOrder.asymm {compare : α → α → Bool}
    (h : IsStrictWeakOrder compare) (a b : α) (hab : compare a b = true) :
    compare b a = false := by
  by_contra hba
  have hba' : compare b a = true := by
    cases hc : compare b a with
    | false => exact absurd hc hba
    | true => rfl
  have := h.lt_trans a b a hab hba'
  rw [h.irrefl a] at this
  exact Bool.false_ne_true this

theorem IsStrictWeakOrder.asc_refl {compare : α → α → Bool}
    (h : IsStrictWeakOrder compare) (a : α) : Asc compare a a := h.irrefl a

theorem IsStrictWeakOrder.asc_trans {compare : α → α → Bool}
    (h : IsStrictWeakOrder compare) {a b c : α}
    (hab : Asc compare a b) (hbc : Asc compare b c) : Asc compare a c :=
  h.nlt_trans c b a hbc hab

theorem IsStrictWeakOrder.asc_total {compare : α → α → Bool}
    (h : IsStrictWeakOrder compare) (a b : α) :
    Asc compare a b ∨ Asc compare b a := by
  cases hab : compare a b with
  | false => exact .inr hab
  | true => exact .inl (h.asymm a b hab)

/-! ### Slices of a list

`slice l i j` is the sub-range `[i, j)` of `l`, the Lean counterpart of an
iterator pair into the sequence. -/

/-- The sub-range `[i, j)` of `l`. -/
def slice (l : List α) (i j : Nat) : List α := (l.drop i).take (j - i)

@[simp] theorem slice_length (l : List α) (i j : Nat) (hj : j ≤ l.length) :
    (slice l i j).length = j - i := by
  simp [slice]
  omega

theorem slice_zero (l : List α) (j : Nat) : slice l 0 j = l.take j := by
  simp [slice]

theorem slice_full (l : List α) : slice l 0 l.length = l := by
  simp [slice]

theorem slice_self (l : List α) (i : Nat) : slice l i i = [] := by
  simp [slice]

theorem slice_eq_drop_take (l : List α) (i j : Nat) :
    slice l i j = (l.take j).drop i := by
  simp [slice, List.drop_take]

/-- Splitting a list at two positions: `l = l.take i ++ slice l i j ++ l.drop j`. -/
theorem take_slice_drop (l : List α) (i j : Nat) (hij : i ≤ j) :
    l.take i ++ slice l i j ++ l.drop j = l := by
  have h1 : l.drop j = (l.drop i).drop (j - i) := by
    rw [List.drop_drop]
    congr 1
    omega
  rw [h1, slice, List.append_assoc, List.take_append_drop, List.take_append_drop]

theorem slice_append_slice (l : List α) (i j k : Nat) (hij : i ≤ j) (hjk : j ≤ k) :
    slice l i j ++ slice l j k = slice l i k := by
  have h1 : slice l j k = ((l.drop i).drop (j - i)).take (k - j) := by
    rw [List.drop_drop, slice]
    congr 2
    omega
  have h2 : k - i = (j - i) + (k - j) := by omega
  rw [slice, h1, slice, h2, List.take_add]

/-! ### Patching a sub-range

Every in-place operation of the algorithm rewrites one sub-range `[i, j)` and
leaves the rest of the sequence alone, so its result has the shape
`l.take i ++ mid ++ l.drop j` with `mid.length = j - i`.  The lemmas below
describe such a patched list. -/

theorem patch_length (l mid : List α) (i j : Nat) (hij : i ≤ j) (hj : j ≤ l.length)
    (hmid : mid.length = j - i) :
    (l.take i ++ mid ++ l.drop j).length = l.length := by
  simp [hmid]
  omega

theorem patch_perm (l mid : List α) (i j : Nat) (hij : i ≤ j)
    (hmid : mid.Perm (slice l i j)) :
    (l.take i ++ mid ++ l.drop j).Perm l := by
  calc (l.take i ++ mid ++ l.drop j).Perm (l.take i ++ slice l i j ++ l.drop j) :=
        ((List.Perm.refl (l.take i)).append hmid).append (List.Perm.refl (l.drop j))
    _ = l := take_slice_drop l i j hij

theorem patch_take (l mid : List α) (i j : Nat) (hi : i ≤ l.length) :
    (l.take i ++ mid ++ l.drop j).take i = l.take i := by
  rw [List.append_assoc, List.take_append_of_le_length (by simp; omega),
    List.take_take, Nat.min_self]

theorem patch_drop (l mid : List α) (i j : Nat) (hij : i ≤ j) (hj : j ≤ l.length)
    (hmid : mid.length = j - i) :
    (l.take i ++ mid ++ l.drop j).drop j = l.drop j := by
  have hlen : (l.take i ++ mid).length = j := by simp [hmid]; omega
  rw [List.drop_append_eq_append_drop, List.drop_eq_nil_of_le (by omega), hlen]
  simp

theorem patch_slice_mid (l mid : List α) (i j : Nat) (hi : i ≤ l.length)
    (hmid : mid.length = j - i) :
    slice (l.take i ++ mid ++ l.drop j) i j = mid := by
  have hlen : (l.take i).length = i := by simp; omega
  rw [slice, List.append_assoc, List.drop_append_eq_append_drop, hlen,
    List.drop_eq_nil_of_le (le_of_eq hlen), Nat.sub_self, List.drop_zero, List.nil_append,
    List.take_append_eq_append_take, hmid, List.take_of_length_le (le_of_eq hmid),
    Nat.sub_self, List.take_zero, List.append_nil]

/-- A patch of `[i, j)` leaves any sub-range of `[0, i)` unchanged. -/
theorem patch_slice_left (l mid : List α) (i j a b : Nat) (hb : b ≤ i) (hi : i ≤ l.length) :
    slice (l.take i ++ mid ++ l.drop j) a b = slice l a b := by
  rw [slice_eq_drop_take, slice_eq_drop_take]
  have h1 : (l.take i ++ mid ++ l.drop j).take b
      = ((l.take i ++ mid ++ l.drop j).take i).take b := by
    rw [List.take_take, Nat.min_eq_left hb]
  have h2 : l.take b = (l.take i).take b := by rw [List.take_take, Nat.min_eq_left hb]
  rw [h1, patch_take l mid i j hi, ← h2]

/-- A patch of `[i, j)` leaves any sub-range of `[j, length)` unchanged. -/
theorem patch_slice_right (l mid : List α) (i j a b : Nat) (ha : j ≤ a) (hij : i ≤ j)
    (hj : j ≤ l.length) (hmid : mid.length = j - i) :
    slice (l.take i ++ mid ++ l.drop j) a b = slice l a b := by
  have h1 : ∀ x : List α, slice x a b = ((x.drop j).drop (a - j)).take (b - a) := by
    intro x
    rw [slice, List.drop_drop]
    congr 2
    omega
  rw [h1, h1, patch_drop l mid i j hij hj hmid]

/-! ### The two-way merge primitive

Modelled from the spec: `std::inplace_merge(begin, middle, end, compare)` is
consumed through the contract "given two adjacent already-sorted sub-ranges,
produces one sorted range in place, stable with respect to equal elements".
`mergePair` is the standard stable merge of two lists: it takes from the
second list only when its head ranks strictly before the head of the first. -/

def mergePairAux (compare : α → α → Bool) : Nat → List α → List α → List α
  | 0, xs, ys => xs ++ ys
  | _ + 1, [], ys => ys
  | _ + 1, x :: xs, [] => x :: xs
  | fuel + 1, x :: xs, y :: ys =>
    if compare y x then y :: mergePairAux compare fuel (x :: xs) ys
    else x :: mergePairAux compare fuel xs (y :: ys)

/-- The stable two-way merge; the fuel `xs.length + ys.length` is exactly the
number of steps the merge takes, so the fuelled loop never runs short. -/
def mergePair (compare : α → α → Bool) (xs ys : List α) : List α :=
  mergePairAux compare (xs.length + ys.length) xs ys

theorem mergePairAux_fuel (compare : α → α → Bool) :
    ∀ f g (xs ys : List α), xs.length + ys.length ≤ f → xs.length + ys.length ≤ g →
      mergePairAux compare f xs ys = mergePairAux compare g xs ys := by
  intro f
  induction f with
  | zero =>
    intro g xs ys hf hg
    have hx : xs = [] := List.length_eq_zero.mp (by omega)
    have hy : ys = [] := List.length_eq_zero.mp (by omega)
    subst hx; subst hy
    cases g <;> rfl
  | succ f ih =>
    intro g xs ys hf hg
    match xs, ys with
    | [], ys => cases g <;> rfl
    | x :: xs, [] =>
      cases g with
      | zero => exact absurd hg (by simp)
      | succ g => rfl
    | x :: xs, y :: ys =>
      cases g with
      | zero => exact absurd hg (by simp)
      | succ g =>
        simp only [mergePairAux]
        by_cases hc : compare y x
        · rw [if_pos hc, if_pos hc,
            ih g (x :: xs) ys (by simp at hf ⊢; omega) (by simp at hg ⊢; omega)]
        · rw [if_neg hc, if_neg hc,
            ih g xs (y :: ys) (by simp at hf ⊢; omega) (by simp at hg ⊢; omega)]

@[simp] theorem mergePair_nil_left (compare : α → α → Bool) (ys : List α) :
    mergePair compare [] ys = ys := by
  cases ys <;> rfl

@[simp] theorem mergePair_nil_right (compare : α → α → Bool) (xs : List α) :
    mergePair compare xs [] = xs := by
  cases xs with
  | nil => rfl
  | cons x xs => exact List.append_nil (x :: xs) ▸ rfl

theorem mergePair_cons_cons (compare : α → α → Bool) (x y : α) (xs ys : List α) :
    mergePair compare (x :: xs) (y :: ys)
      = if compare y x then y :: mergePair compare (x :: xs) ys
        else x :: mergePair compare xs (y :: ys) := by
  show mergePairAux compare ((x :: xs).length + (y :: ys).length) (x :: xs) (y :: ys) = _
  have h : (x :: xs).length + (y :: ys).length = (xs.length + ys.length + 1) + 1 := by
    simp
    omega
  rw [h]
  simp only [mergePairAux]
  by_cases hc : compare y x
  · rw [if_pos hc, if_pos hc, mergePairAux_fuel compare (xs.length + ys.length + 1)
      ((x :: xs).length + ys.length) (x :: xs) ys
      (by simp only [List.length_cons]; omega) (by simp only [List.length_cons]; omega)]
    rfl
  · rw [if_neg hc, if_neg hc, mergePairAux_fuel compare (xs.length + ys.length + 1)
      (xs.length + (y :: ys).length) xs (y :: ys)
      (by simp only [List.length_cons]; omega) (by simp only [List.length_cons]; omega)]
    rfl

theorem mergePairAux_perm (compare : α → α → Bool) :
    ∀ fuel (xs ys : List α), (mergePairAux compare fuel xs ys).Perm (xs ++ ys) := by
  intro fuel
  induction fuel with
  | zero => intro xs ys; exact List.Perm.refl _
  | succ fuel ih =>
    intro xs ys
    match xs, ys with
    | [], ys => exact List.Perm.refl ys
    | x :: xs, [] => exact (List.Perm.refl (x :: xs)).trans (by simp)
    | x :: xs, y :: ys =>
      simp only [mergePairAux]
      by_cases hc : compare y x
      · rw [if_pos hc]
        refine ((ih (x :: xs) ys).cons y).trans ?_
        refine List.Perm.trans (List.Perm.swap x y (xs ++ ys)) ?_
        exact (List.perm_middle.symm).cons x
      · rw [if_neg hc]
        exact (ih xs (y :: ys)).cons x

theorem mergePair_perm (compare : α → α → Bool) (xs ys : List α) :
    (mergePair compare xs ys).Perm (xs ++ ys) :=
  mergePairAux_perm compare _ xs ys

theorem mergePair_length (compare : α → α → Bool) (xs ys : List α) :
    (mergePair compare xs ys).length = xs.length + ys.length := by
  have := (mergePair_perm compare xs ys).length_eq
  simpa using this

theorem mem_mergePair (compare : α → α → Bool) (xs ys : List α) (a : α) :
    a ∈ mergePair compare xs ys ↔ a ∈ xs ∨ a ∈ ys := by
  rw [(mergePair_perm compare xs ys).mem_iff, List.mem_append]

theorem mergePair_pairwise {compare : α → α → Bool} (hsw : IsStrictWeakOrder compare)
    (xs ys : List α) (hx : xs.Pairwise (Asc compare)) (hy : ys.Pairwise (Asc compare)) :
    (mergePair compare xs ys).Pairwise (Asc compare) := by
  suffices h : ∀ fuel (xs ys : List α), xs.length + ys.length ≤ fuel →
      xs.Pairwise (Asc compare) → ys.Pairwise (Asc compare) →
      (mergePairAux compare fuel xs ys).Pairwise (Asc compare) from
    h _ xs ys (Nat.le_refl _) hx hy
  intro fuel
  induction fuel with
  | zero =>
    intro xs ys h _ _
    have hx0 : xs = [] := List.length_eq_zero.mp (by omega)
    have hy0 : ys = [] := List.length_eq_zero.mp (by omega)
    subst hx0; subst hy0
    exact List.Pairwise.nil
  | succ fuel ih =>
    intro xs ys h hx hy
    match xs, ys with
    | [], ys => exact hy
    | x :: xs, [] => exact hx
    | x :: xs, y :: ys =>
      rw [List.pairwise_cons] at hx hy
      rw [mergePairAux]
      by_cases hc : compare y x
      · rw [if_pos hc, List.pairwise_cons]
        refine ⟨?_, ih (x :: xs) ys (by simp at h ⊢; omega)
          (List.pairwise_cons.mpr hx) hy.2⟩
        intro b hb
        rw [(mergePairAux_perm compare fuel (x :: xs) ys).mem_iff,
          List.mem_append] at hb
        have hyx : Asc compare y x := hsw.asymm y x hc
        rcases hb with hb | hb
        · rcases List.mem_cons.mp hb with rfl | hb
          · exact hyx
          · exact hsw.asc_trans hyx (hx.1 b hb)
        · exact hy.1 b hb
      · have hf : compare y x = false := by simpa using hc
        rw [if_neg hc, List.pairwise_cons]
        refine ⟨?_, ih xs (y :: ys) (by simp at h ⊢; omega)
          hx.2 (List.pairwise_cons.mpr hy)⟩
        intro b hb
        rw [(mergePairAux_perm compare fuel xs (y :: ys)).mem_iff,
          List.mem_append] at hb
        rcases hb with hb | hb
        · exact hx.1 b hb
        · rcases List.mem_cons.mp hb with rfl | hb
          · exact hf
          · exact hsw.asc_trans (show Asc compare x y from hf) (hy.1 b hb)

instance (compare : α → α → Bool) : DecidableRel (Asc compare) := fun a b =>
  inferInstanceAs (Decidable (compare b a = false))

/-! ### The fallback sub-sort

Modelled from the spec: `pdqsort(begin, end, compare)` is consumed through the
contract "in-place, any order achieving full ordering under `compare`,
worst-case O(n log n)" (the file `pdqsort.h` is not part of the core).  It is
embedded as a stable insertion sort of the designated sub-range. -/

def insertAsc (compare : α → α → Bool) (a : α) : List α → List α
  | [] => [a]
  | b :: r => if compare b a then b :: insertAsc compare a r else a :: b :: r

def sortAsc (compare : α → α → Bool) : List α → List α
  | [] => []
  | a :: r => insertAsc compare a (sortAsc compare r)

theorem insertAsc_perm (compare : α → α → Bool) (a : α) :
    ∀ r : List α, (insertAsc compare a r).Perm (a :: r)
  | [] => List.Perm.refl [a]
  | b :: r => by
    rw [insertAsc]
    by_cases h : compare b a
    · rw [if_pos h]
      exact List.Perm.trans ((insertAsc_perm compare a r).cons b) (List.Perm.swap a b r)
    · rw [if_neg h]

theorem sortAsc_perm (compare : α → α → Bool) :
    ∀ r : List α, (sortAsc compare r).Perm r
  | [] => List.Perm.refl []
  | a :: r => by
    rw [sortAsc]
    exact List.Perm.trans (insertAsc_perm compare a (sortAsc compare r))
      ((sortAsc_perm compare r).cons a)

theorem insertAsc_pairwise {compare : α → α → Bool} (hsw : IsStrictWeakOrder compare)
    (a : α) : ∀ r : List α, r.Pairwise (Asc compare) →
      (insertAsc compare a r).Pairwise (Asc compare)
  | [] => by simp [insertAsc, Asc]
  | b :: r => by
    intro hr
    rw [List.pairwise_cons] at hr
    rw [insertAsc]
    by_cases h : compare b a
    · rw [if_pos h, List.pairwise_cons]
      refine ⟨?_, insertAsc_pairwise hsw a r hr.2⟩
      intro c hc
      have := (insertAsc_perm compare a r).mem_iff.mp hc
      rcases List.mem_cons.mp this with rfl | hc'
      · exact hsw.asymm b c h
      · exact hr.1 c hc'
    · have hf : compare b a = false := by simpa using h
      rw [if_neg h, List.pairwise_cons]
      refine ⟨?_, List.pairwise_cons.mpr hr⟩
      intro c hc
      rcases List.mem_cons.mp hc with rfl | hc'
      · exact hf
      · exact hsw.asc_trans (show Asc compare a b from hf) (hr.1 c hc')

theorem sortAsc_pairwise {compare : α → α → Bool} (hsw : IsStrictWeakOrder compare) :
    ∀ r : List α, (sortAsc compare r).Pairwise (Asc compare)
  | [] => List.Pairwise.nil
  | a :: r => insertAsc_pairwise hsw a (sortAsc compare r) (sortAsc_pairwise hsw r)

theorem sortAsc_length (compare : α → α → Bool) (r : List α) :
    (sortAsc compare r).length = r.length := (sortAsc_perm compare r).length_eq

/-- The modelled sub-sort is stable, hence the identity on an already-sorted list. -/
theorem sortAsc_of_pairwise {compare : α → α → Bool} :
    ∀ r : List α, r.Pairwise (Asc compare) → sortAsc compare r = r
  | [] => fun _ => rfl
  | a :: r => by
    intro hr
    rw [List.pairwise_cons] at hr
    rw [sortAsc, sortAsc_of_pairwise r hr.2]
    cases r with
    | nil => rfl
    | cons b r' =>
      rw [insertAsc]
      have : compare b a = false := hr.1 b (List.mem_cons_self b r')
      simp [this]

/-! ### Integer base-2 logarithm

Modelled from the spec: the unstable-limit threshold is "`size / log2(size)`
(derived once per call from total sequence length)"; `pdqsort_detail::log2`
(in the out-of-scope `pdqsort.h`) counts how often the argument can be halved,
i.e. the floor of the base-2 logarithm.  Embedded with explicit fuel so that
it is structurally recursive. -/

def log2Aux : Nat → Nat → Nat
  | 0, _ => 0
  | fuel + 1, n => if 2 ≤ n then log2Aux fuel (n / 2) + 1 else 0

def log2 (n : Nat) : Nat := log2Aux n n

theorem log2Aux_le (fuel n : Nat) : log2Aux fuel n ≤ n := by
  induction fuel generalizing n with
  | zero => exact Nat.zero_le n
  | succ fuel ih =>
    rw [log2Aux]
    by_cases h : 2 ≤ n
    · rw [if_pos h]
      have := ih (n / 2)
      omega
    · rw [if_neg h]
      exact Nat.zero_le n

theorem log2_le (n : Nat) : log2 n ≤ n := log2Aux_le n n

theorem two_le_log2 (n : Nat) (h : 4 ≤ n) : 2 ≤ log2 n := by
  have h1 : ∀ fuel m, 2 ≤ m → 1 ≤ fuel → 1 ≤ log2Aux fuel m := by
    intro fuel m hm hf
    match fuel, hf with
    | fuel + 1, _ =>
      rw [log2Aux, if_pos hm]
      omega
  match n, h with
  | n + 4, _ =>
    show 2 ≤ log2Aux (n + 4) (n + 4)
    rw [log2Aux, if_pos (by omega)]
    have := h1 (n + 3) ((n + 4) / 2) (by omega) (by omega)
    omega

/-! ### The embedded source of `vergesort.h`

Iterators become indices; `last` is the length of the sequence.  Loops carry
an explicit fuel argument so that every function is structurally recursive;
each caller passes enough fuel for the loop to run to its real exit, which the
correctness lemmas prove. -/

/-- `std::inplace_merge(first, middle, last, compare)` on the embedded
sequence (spec collaborator contract, used by vergesort.h lines 50-51, 55-56,
129, 163, 180). -/
def inplace_merge (compare : α → α → Bool) (l : List α) (first middle last : Nat) : List α :=
  l.take first ++ mergePair compare (slice l first middle) (slice l middle last) ++ l.drop last

/-- `vergesort_detail::inplace_merge3` (vergesort.h lines 41-58): merge three
adjacent sorted sub-ranges, doing the two 2-way merges in the order picked by
comparing the outer sub-range lengths. -/
def inplace_merge3 (compare : α → α → Bool) (l : List α)
    (first middle1 middle2 last : Nat) : List α :=
  if middle1 - first < last - middle2 then
    inplace_merge compare (inplace_merge compare l first middle1 middle2) first middle2 last
  else
    inplace_merge compare (inplace_merge compare l middle1 middle2 last) first middle1 last

/-- `std::reverse(first, last)` on the embedded sequence (vergesort.h
lines 122, 128). -/
def reverse_range (l : List α) (first last : Nat) : List α :=
  l.take first ++ (slice l first last).reverse ++ l.drop last

/-- Modelled from the spec: the fallback sub-sort `pdqsort(begin, end,
compare)` — "in-place, any order achieving full ordering under compare"
(`pdqsort.h` is outside the core).  Embedded as a stable sort of `[first,
last)`. -/
def pdqsort (compare : α → α → Bool) (l : List α) (first last : Nat) : List α :=
  l.take first ++ sortAsc compare (slice l first last) ++ l.drop last

/-- The walk of `vergesort_detail::is_sorted_until` (vergesort.h lines 64-75):
`first` advances while the adjacent pair `(first, first+1)` is in order; the
position of the first inversion (the second element of the pair) is returned,
or `last` if none exists. -/
def isSortedUntilAux [Inhabited α] (compare : α → α → Bool) (l : List α) (last : Nat) :
    Nat → Nat → Nat
  | 0, _ => last
  | fuel + 1, first =>
    let next := first + 1
    if next = last then last
    else if compare l[next]! l[first]! then next
    else isSortedUntilAux compare l last fuel next

/-- `vergesort_detail::is_sorted_until` (vergesort.h lines 61-77). -/
def is_sorted_until [Inhabited α] (compare : α → α → Bool) (l : List α)
    (first last : Nat) : Nat :=
  if first = last then last
  else isSortedUntilAux compare l last (last - first) first

/-- The decreasing-range scan (vergesort.h lines 109-114): advance the cursor
pair while `next != last` and `!compare(*current, *next)`.  Returns the final
`(current, next)`. -/
def decScanAux [Inhabited α] (compare : α → α → Bool) (l : List α) (last : Nat) :
    Nat → Nat → Nat → Nat × Nat
  | 0, current, next => (current, next)
  | fuel + 1, current, next =>
    if next = last then (current, next)
    else if compare l[current]! l[next]! then (current, next)
    else decScanAux compare l last fuel (current + 1) (next + 1)

/-- The increasing-range scan (vergesort.h lines 145-150): advance the cursor
pair while `next != last` and `!compare(*next, *current)`. -/
def ascScanAux [Inhabited α] (compare : α → α → Bool) (l : List α) (last : Nat) :
    Nat → Nat → Nat → Nat × Nat
  | 0, current, next => (current, next)
  | fuel + 1, current, next =>
    if next = last then (current, next)
    else if compare l[next]! l[current]! then (current, next)
    else ascScanAux compare l last fuel (current + 1) (next + 1)

/-- Instrumentation: how often the collaborators were invoked during one
`vergesort` call, and the threshold value used at each run classification. -/
structure VergeStats where
  pdq : Nat
  merges : Nat
  revs : Nat
  limits : List Nat
deriving DecidableEq

/-- The local state of vergesort's main loop: the sequence, the pending-batch
marker `begin_unstable` (sentinel: `last`, i.e. the length of the sequence),
the cursor pair, and the instrumentation counters. -/
structure VState (α : Type _) where
  l : List α
  bu : Nat
  cur : Nat
  nxt : Nat
  stats : VergeStats

/-- First half of the loop body (vergesort.h lines 106-135): detect one
decreasing run `[begin_rng, next)`, then either reverse-and-merge it (long
run) or open/extend the unstable batch (short run). -/
def descPhase [Inhabited α] (compare : α → α → Bool) (n limit : Nat)
    (st : VState α) : VState α :=
  let begin_rng := st.cur
  let scan := decScanAux compare st.l n n st.cur st.nxt
  let current := scan.1
  let next := scan.2
  if next - begin_rng > limit then
    if st.bu ≠ n then
      let l1 := pdqsort compare st.l st.bu begin_rng
      let l2 := reverse_range l1 begin_rng next
      let l3 := inplace_merge3 compare l2 0 st.bu begin_rng next
      ⟨l3, n, current, next,
        ⟨st.stats.pdq + 1, st.stats.merges + 2, st.stats.revs + 1,
          st.stats.limits ++ [limit]⟩⟩
    else
      let l2 := reverse_range st.l begin_rng next
      let l3 := inplace_merge compare l2 0 begin_rng next
      ⟨l3, st.bu, current, next,
        ⟨st.stats.pdq, st.stats.merges + 1, st.stats.revs + 1,
          st.stats.limits ++ [limit]⟩⟩
  else
    ⟨st.l, if st.bu = n then begin_rng else st.bu, current, next,
      ⟨st.stats.pdq, st.stats.merges, st.stats.revs, st.stats.limits ++ [limit]⟩⟩

/-- Second half of the loop body (vergesort.h lines 142-169): detect one
increasing run and merge or batch it (no reversal). -/
def ascPhase [Inhabited α] (compare : α → α → Bool) (n limit : Nat)
    (st : VState α) : VState α :=
  let begin_rng := st.cur
  let scan := ascScanAux compare st.l n n st.cur st.nxt
  let current := scan.1
  let next := scan.2
  if next - begin_rng > limit then
    if st.bu ≠ n then
      let l1 := pdqsort compare st.l st.bu begin_rng
      let l2 := inplace_merge3 compare l1 0 st.bu begin_rng next
      ⟨l2, n, current, next,
        ⟨st.stats.pdq + 1, st.stats.merges + 2, st.stats.revs,
          st.stats.limits ++ [limit]⟩⟩
    else
      let l2 := inplace_merge compare st.l 0 begin_rng next
      ⟨l2, st.bu, current, next,
        ⟨st.stats.pdq, st.stats.merges + 1, st.stats.revs,
          st.stats.limits ++ [limit]⟩⟩
  else
    ⟨st.l, if st.bu = n then begin_rng else st.bu, current, next,
      ⟨st.stats.pdq, st.stats.merges, st.stats.revs, st.stats.limits ++ [limit]⟩⟩

/-- One iteration of the `while (true)` loop (vergesort.h lines 104-175):
`Sum.inr` is the state at a `break`, `Sum.inl` the state handed to the next
iteration (after the `++current; ++next` bumps between runs). -/
def vergeIter [Inhabited α] (compare : α → α → Bool) (n limit : Nat)
    (st : VState α) : VState α ⊕ VState α :=
  let s1 := descPhase compare n limit st
  if s1.nxt = n then Sum.inr s1
  else
    let s2 := ascPhase compare n limit { s1 with cur := s1.cur + 1, nxt := s1.nxt + 1 }
    if s2.nxt = n then Sum.inr s2
    else Sum.inl { s2 with cur := s2.cur + 1, nxt := s2.nxt + 1 }

/-- The `while (true)` loop, with fuel (each iteration advances `next` by at
least two, so `n + 1` units never run out). -/
def vergeLoop [Inhabited α] (compare : α → α → Bool) (n limit : Nat) :
    Nat → VState α → VState α
  | 0, st => st
  | fuel + 1, st =>
    match vergeIter compare n limit st with
    | Sum.inr stF => stF
    | Sum.inl st2 => vergeLoop compare n limit fuel st2

/-- `vergesort(first, last, compare)` (vergesort.h lines 80-182) on a whole
sequence, returning the sorted sequence together with the instrumentation. -/
def vergesort [Inhabited α] (compare : α → α → Bool) (l : List α) :
    List α × VergeStats :=
  let dist := l.length
  if dist < 80 then
    (pdqsort compare l 0 dist, ⟨1, 0, 0, []⟩)
  else
    let unstable_limit := dist / log2 dist
    let current := is_sorted_until compare l 0 dist - 1
    let st0 : VState α := ⟨l, dist, current, current + 1, ⟨0, 0, 0, []⟩⟩
    let stF := vergeLoop compare dist unstable_limit (dist + 1) st0
    if stF.bu ≠ dist then
      (inplace_merge compare (pdqsort compare stF.l stF.bu dist) 0 stF.bu dist,
        ⟨stF.stats.pdq + 1, stF.stats.merges + 1, stF.stats.revs, stF.stats.limits⟩)
    else (stF.l, stF.stats)

/-- The threshold formula exactly as the spec's design note words it,
"`size / log2(size) * 0.9`", read over the integers (for comparison with the
threshold the source actually computes). -/
def specThreshold (n : Nat) : Nat := n / log2 n * 9 / 10

/-- The natural strict order on `Nat` as a comparator (the benchmark driver
instantiates every sort with `std::less<int>`). -/
def natLt (a b : Nat) : Bool := decide (a < b)

/-! ### Properties of the in-place operations -/

theorem patch_take_le (l mid : List α) (i j b : Nat) (hb : b ≤ i) (hi : i ≤ l.length) :
    (l.take i ++ mid ++ l.drop j).take b = l.take b := by
  have h1 : (l.take i ++ mid ++ l.drop j).take b
      = ((l.take i ++ mid ++ l.drop j).take i).take b := by
    rw [List.take_take, Nat.min_eq_left hb]
  have h2 : l.take b = (l.take i).take b := by rw [List.take_take, Nat.min_eq_left hb]
  rw [h1, patch_take l mid i j hi, ← h2]

theorem patch_drop_ge (l mid : List α) (i j a : Nat) (ha : j ≤ a) (hij : i ≤ j)
    (hj : j ≤ l.length) (hmid : mid.length = j - i) :
    (l.take i ++ mid ++ l.drop j).drop a = l.drop a := by
  have h1 : ∀ x : List α, x.drop a = (x.drop j).drop (a - j) := by
    intro x
    rw [List.drop_drop]
    congr 1
    omega
  rw [h1, h1, patch_drop l mid i j hij hj hmid]

section MergeSpec

variable (c : α → α → Bool) (l : List α)

theorem inplace_merge_mid_length (f m t : Nat) (hfm : f ≤ m) (hmt : m ≤ t)
    (ht : t ≤ l.length) :
    (mergePair c (slice l f m) (slice l m t)).length = t - f := by
  rw [mergePair_length, slice_length l f m (by omega), slice_length l m t ht]
  omega

theorem inplace_merge_mid_perm (f m t : Nat) (hfm : f ≤ m) (hmt : m ≤ t) :
    (mergePair c (slice l f m) (slice l m t)).Perm (slice l f t) := by
  refine (mergePair_perm c _ _).trans ?_
  rw [slice_append_slice l f m t hfm hmt]

theorem inplace_merge_length (f m t : Nat) (hfm : f ≤ m) (hmt : m ≤ t)
    (ht : t ≤ l.length) :
    (inplace_merge c l f m t).length = l.length :=
  patch_length l _ f t (by omega) ht (inplace_merge_mid_length c l f m t hfm hmt ht)

theorem inplace_merge_perm (f m t : Nat) (hfm : f ≤ m) (hmt : m ≤ t) :
    (inplace_merge c l f m t).Perm l :=
  patch_perm l _ f t (by omega) (inplace_merge_mid_perm c l f m t hfm hmt)

theorem inplace_merge_take_le (f m t b : Nat) (hb : b ≤ f) (hf : f ≤ l.length) :
    (inplace_merge c l f m t).take b = l.take b :=
  patch_take_le l _ f t b hb hf

theorem inplace_merge_drop_ge (f m t a : Nat) (ha : t ≤ a) (hfm : f ≤ m) (hmt : m ≤ t)
    (ht : t ≤ l.length) :
    (inplace_merge c l f m t).drop a = l.drop a :=
  patch_drop_ge l _ f t a ha (by omega) ht (inplace_merge_mid_length c l f m t hfm hmt ht)

theorem inplace_merge_slice_mid (f m t : Nat) (hfm : f ≤ m) (hmt : m ≤ t)
    (ht : t ≤ l.length) :
    slice (inplace_merge c l f m t) f t = mergePair c (slice l f m) (slice l m t) :=
  patch_slice_mid l _ f t (by omega) (inplace_merge_mid_length c l f m t hfm hmt ht)

theorem inplace_merge_slice_left (f m t a b : Nat) (hb : b ≤ f) (hf : f ≤ l.length) :
    slice (inplace_merge c l f m t) a b = slice l a b :=
  patch_slice_left l _ f t a b hb hf

theorem inplace_merge_slice_right (f m t a b : Nat) (ha : t ≤ a) (hfm : f ≤ m)
    (hmt : m ≤ t) (ht : t ≤ l.length) :
    slice (inplace_merge c l f m t) a b = slice l a b :=
  patch_slice_right l _ f t a b ha (by omega) ht
    (inplace_merge_mid_length c l f m t hfm hmt ht)

theorem inplace_merge_sorted {c : α → α → Bool} (hsw : IsStrictWeakOrder c)
    (l : List α) (f m t : Nat) (hfm : f ≤ m) (hmt : m ≤ t) (ht : t ≤ l.length)
    (h1 : (slice l f m).Pairwise (Asc c)) (h2 : (slice l m t).Pairwise (Asc c)) :
    (slice (inplace_merge c l f m t) f t).Pairwise (Asc c) := by
  rw [inplace_merge_slice_mid c l f m t hfm hmt ht]
  exact mergePair_pairwise hsw _ _ h1 h2

end MergeSpec

section PdqSpec

variable (c : α → α → Bool) (l : List α)

theorem pdqsort_mid_length (f t : Nat) (hft : f ≤ t) (ht : t ≤ l.length) :
    (sortAsc c (slice l f t)).length = t - f := by
  rw [sortAsc_length, slice_length l f t ht]

theorem pdqsort_length (f t : Nat) (hft : f ≤ t) (ht : t ≤ l.length) :
    (pdqsort c l f t).length = l.length :=
  patch_length l _ f t hft ht (pdqsort_mid_length c l f t hft ht)

theorem pdqsort_perm (f t : Nat) (hft : f ≤ t) :
    (pdqsort c l f t).Perm l :=
  patch_perm l _ f t hft (sortAsc_perm c _)

theorem pdqsort_take_le (f t b : Nat) (hb : b ≤ f) (hf : f ≤ l.length) :
    (pdqsort c l f t).take b = l.take b :=
  patch_take_le l _ f t b hb hf

theorem pdqsort_drop_ge (f t a : Nat) (ha : t ≤ a) (hft : f ≤ t) (ht : t ≤ l.length) :
    (pdqsort c l f t).drop a = l.drop a :=
  patch_drop_ge l _ f t a ha hft ht (pdqsort_mid_length c l f t hft ht)

theorem pdqsort_slice_mid (f t : Nat) (hft : f ≤ t) (ht : t ≤ l.length) :
    slice (pdqsort c l f t) f t = sortAsc c (slice l f t) :=
  patch_slice_mid l _ f t (by omega) (pdqsort_mid_length c l f t hft ht)

theorem pdqsort_slice_left (f t a b : Nat) (hb : b ≤ f) (hf : f ≤ l.length) :
    slice (pdqsort c l f t) a b = slice l a b :=
  patch_slice_left l _ f t a b hb hf

theorem pdqsort_slice_right (f t a b : Nat) (ha : t ≤ a) (hft : f ≤ t)
    (ht : t ≤ l.length) :
    slice (pdqsort c l f t) a b = slice l a b :=
  patch_slice_right l _ f t a b ha hft ht (pdqsort_mid_length c l f t hft ht)

theorem pdqsort_sorted {c : α → α → Bool} (hsw : IsStrictWeakOrder c)
    (l : List α) (f t : Nat) (hft : f ≤ t) (ht : t ≤ l.length) :
    (slice (pdqsort c l f t) f t).Pairwise (Asc c) := by
  rw [pdqsort_slice_mid c l f t hft ht]
  exact sortAsc_pairwise hsw _

end PdqSpec

section ReverseSpec

variable (l : List α)

theorem reverse_range_mid_length (f t : Nat) (hft : f ≤ t) (ht : t ≤ l.length) :
    ((slice l f t).reverse).length = t - f := by
  rw [List.length_reverse, slice_length l f t ht]

theorem reverse_range_length (f t : Nat) (hft : f ≤ t) (ht : t ≤ l.length) :
    (reverse_range l f t).length = l.length :=
  patch_length l _ f t hft ht (reverse_range_mid_length l f t hft ht)

theorem reverse_range_perm (f t : Nat) (hft : f ≤ t) :
    (reverse_range l f t).Perm l :=
  patch_perm l _ f t hft (List.reverse_perm _)

theorem reverse_range_take_le (f t b : Nat) (hb : b ≤ f) (hf : f ≤ l.length) :
    (reverse_range l f t).take b = l.take b :=
  patch_take_le l _ f t b hb hf

theorem reverse_range_drop_ge (f t a : Nat) (ha : t ≤ a) (hft : f ≤ t)
    (ht : t ≤ l.length) :
    (reverse_range l f t).drop a = l.drop a :=
  patch_drop_ge l _ f t a ha hft ht (reverse_range_mid_length l f t hft ht)

theorem reverse_range_slice_mid (f t : Nat) (hft : f ≤ t) (ht : t ≤ l.length) :
    slice (reverse_range l f t) f t = (slice l f t).reverse :=
  patch_slice_mid l _ f t (by omega) (reverse_range_mid_length l f t hft ht)

theorem reverse_range_slice_left (f t a b : Nat) (hb : b ≤ f) (hf : f ≤ l.length) :
    slice (reverse_range l f t) a b = slice l a b :=
  patch_slice_left l _ f t a b hb hf

theorem reverse_range_slice_right (f t a b : Nat) (ha : t ≤ a) (hft : f ≤ t)
    (ht : t ≤ l.length) :
    slice (reverse_range l f t) a b = slice l a b :=
  patch_slice_right l _ f t a b ha hft ht (reverse_range_mid_length l f t hft ht)

end ReverseSpec

/-- Two lists agreeing from position `t` on have equal sub-ranges above `t`. -/
theorem slice_congr_of_drop (x y : List α) (t a b : Nat) (ha : t ≤ a)
    (h : x.drop t = y.drop t) : slice x a b = slice y a b := by
  have h1 : ∀ z : List α, slice z a b = ((z.drop t).drop (a - t)).take (b - a) := by
    intro z
    rw [slice, List.drop_drop]
    congr 2
    omega
  rw [h1, h1, h]

/-- Two lists agreeing up to position `i` have equal sub-ranges below `i`. -/
theorem slice_congr_of_take (x y : List α) (i a b : Nat) (hb : b ≤ i)
    (h : x.take i = y.take i) : slice x a b = slice y a b := by
  have h1 : ∀ z : List α, slice z a b = ((z.take i).take b).drop a := by
    intro z
    rw [slice_eq_drop_take, List.take_take, Nat.min_eq_left hb]
  rw [h1, h1, h]

section Merge3Spec

variable (c : α → α → Bool) (l : List α)

theorem inplace_merge3_length (f m1 m2 t : Nat) (h1 : f ≤ m1) (h2 : m1 ≤ m2)
    (h3 : m2 ≤ t) (ht : t ≤ l.length) :
    (inplace_merge3 c l f m1 m2 t).length = l.length := by
  rw [inplace_merge3]
  by_cases hc : m1 - f < t - m2
  · rw [if_pos hc]
    have e1 := inplace_merge_length c l f m1 m2 h1 h2 (h3.trans ht)
    rw [inplace_merge_length c _ f m2 t (h1.trans h2) h3 (by omega), e1]
  · rw [if_neg hc]
    have e1 := inplace_merge_length c l m1 m2 t h2 h3 ht
    rw [inplace_merge_length c _ f m1 t h1 (h2.trans h3) (by omega), e1]

theorem inplace_merge3_perm (f m1 m2 t : Nat) (h1 : f ≤ m1) (h2 : m1 ≤ m2)
    (h3 : m2 ≤ t) :
    (inplace_merge3 c l f m1 m2 t).Perm l := by
  rw [inplace_merge3]
  by_cases hc : m1 - f < t - m2
  · rw [if_pos hc]
    exact (inplace_merge_perm c _ f m2 t (h1.trans h2) h3).trans
      (inplace_merge_perm c l f m1 m2 h1 h2)
  · rw [if_neg hc]
    exact (inplace_merge_perm c _ f m1 t h1 (h2.trans h3)).trans
      (inplace_merge_perm c l m1 m2 t h2 h3)

theorem inplace_merge3_take_le (f m1 m2 t b : Nat) (hb : b ≤ f) (h1 : f ≤ m1)
    (h2 : m1 ≤ m2) (h3 : m2 ≤ t) (ht : t ≤ l.length) :
    (inplace_merge3 c l f m1 m2 t).take b = l.take b := by
  rw [inplace_merge3]
  by_cases hc : m1 - f < t - m2
  · rw [if_pos hc]
    have e1 := inplace_merge_length c l f m1 m2 h1 h2 (h3.trans ht)
    rw [inplace_merge_take_le c _ f m2 t b hb (by omega),
      inplace_merge_take_le c l f m1 m2 b hb (by omega)]
  · rw [if_neg hc]
    have e1 := inplace_merge_length c l m1 m2 t h2 h3 ht
    rw [inplace_merge_take_le c _ f m1 t b hb (by omega),
      inplace_merge_take_le c l m1 m2 t b (hb.trans h1) (by omega)]

theorem inplace_merge3_drop_ge (f m1 m2 t a : Nat) (ha : t ≤ a) (h1 : f ≤ m1)
    (h2 : m1 ≤ m2) (h3 : m2 ≤ t) (ht : t ≤ l.length) :
    (inplace_merge3 c l f m1 m2 t).drop a = l.drop a := by
  rw [inplace_merge3]
  by_cases hc : m1 - f < t - m2
  · rw [if_pos hc]
    have e1 := inplace_merge_length c l f m1 m2 h1 h2 (h3.trans ht)
    rw [inplace_merge_drop_ge c _ f m2 t a ha (h1.trans h2) h3 (by omega),
      inplace_merge_drop_ge c l f m1 m2 a (h3.trans ha) h1 h2 (by omega)]
  · rw [if_neg hc]
    have e1 := inplace_merge_length c l m1 m2 t h2 h3 ht
    rw [inplace_merge_drop_ge c _ f m1 t a ha h1 (h2.trans h3) (by omega),
      inplace_merge_drop_ge c l m1 m2 t a ha h2 h3 (by omega)]

theorem inplace_merge3_sorted {c : α → α → Bool} (hsw : IsStrictWeakOrder c)
    (l : List α) (f m1 m2 t : Nat) (h1 : f ≤ m1) (h2 : m1 ≤ m2) (h3 : m2 ≤ t)
    (ht : t ≤ l.length)
    (s1 : (slice l f m1).Pairwise (Asc c)) (s2 : (slice l m1 m2).Pairwise (Asc c))
    (s3 : (slice l m2 t).Pairwise (Asc c)) :
    (slice (inplace_merge3 c l f m1 m2 t) f t).Pairwise (Asc c) := by
  rw [inplace_merge3]
  by_cases hc : m1 - f < t - m2
  · rw [if_pos hc]
    have e1 := inplace_merge_length c l f m1 m2 h1 h2 (h3.trans ht)
    have sa : (slice (inplace_merge c l f m1 m2) f m2).Pairwise (Asc c) :=
      inplace_merge_sorted hsw l f m1 m2 h1 h2 (h3.trans ht) s1 s2
    have sb : (slice (inplace_merge c l f m1 m2) m2 t).Pairwise (Asc c) := by
      rw [inplace_merge_slice_right c l f m1 m2 m2 t (le_refl m2) h1 h2 (h3.trans ht)]
      exact s3
    exact inplace_merge_sorted hsw _ f m2 t (h1.trans h2) h3 (by omega) sa sb
  · rw [if_neg hc]
    have e1 := inplace_merge_length c l m1 m2 t h2 h3 ht
    have sa : (slice (inplace_merge c l m1 m2 t) f m1).Pairwise (Asc c) := by
      rw [inplace_merge_slice_left c l m1 m2 t f m1 (le_refl m1) (by omega)]
      exact s1
    have sb : (slice (inplace_merge c l m1 m2 t) m1 t).Pairwise (Asc c) :=
      inplace_merge_sorted hsw l m1 m2 t h2 h3 ht s2 s3
    exact inplace_merge_sorted hsw _ f m1 t h1 (h2.trans h3) (by omega) sa sb

end Merge3Spec

/-! ### From adjacent comparisons to sorted sub-ranges -/

theorem slice_getElem [Inhabited α] (l : List α) (a b k : Nat) (hb : b ≤ l.length)
    (h : k < (slice l a b).length) :
    (slice l a b)[k]! = l[a + k]! := by
  have hk : k < b - a := by
    have := slice_length l a b hb
    omega
  have hak : a + k < l.length := by omega
  have e1 : (slice l a b)[k]? = l[a + k]? := by
    rw [slice, List.getElem?_take, if_pos hk, List.getElem?_drop]
  rw [List.getElem?_eq_getElem h, List.getElem?_eq_getElem hak] at e1
  rw [getElem!_pos (slice l a b) k h, getElem!_pos l (a + k) hak]
  exact Option.some.inj e1

/-- Adjacent relations propagate to all pairs of a sub-range, for a transitive
relation. -/
theorem pairwise_slice_of_adjacent [Inhabited α] (R : α → α → Prop)
    (htrans : ∀ x y z, R x y → R y z → R x z)
    (l : List α) (a b : Nat) (hb : b ≤ l.length)
    (hadj : ∀ j, a ≤ j → j + 1 < b → R l[j]! l[j+1]!) :
    (slice l a b).Pairwise R := by
  have key : ∀ i j, a ≤ i → i < j → j < b → R l[i]! l[j]! := by
    intro i j hai hij hjb
    induction j, hij using Nat.le_induction with
    | base => exact hadj i hai (by omega)
    | succ j hj ih =>
      refine htrans _ _ _ (ih (by omega)) (hadj j (by omega) (by omega))
  rw [List.pairwise_iff_getElem]
  intro i j hi hj hij
  have hsl := slice_length l a b hb
  rw [← getElem!_pos (slice l a b) i hi, ← getElem!_pos (slice l a b) j hj,
    slice_getElem l a b i hb hi, slice_getElem l a b j hb hj]
  exact key (a + i) (a + j) (by omega) (by omega) (by omega)

/-! ### The scans -/

theorem decScanAux_spec [Inhabited α] (c : α → α → Bool) (l : List α) (n : Nat) :
    ∀ fuel cur nxt, cur + 1 = nxt → nxt ≤ n → n - nxt ≤ fuel →
      (decScanAux c l n fuel cur nxt).1 + 1 = (decScanAux c l n fuel cur nxt).2 ∧
      nxt ≤ (decScanAux c l n fuel cur nxt).2 ∧
      (decScanAux c l n fuel cur nxt).2 ≤ n ∧
      (∀ j, cur ≤ j → j + 1 < (decScanAux c l n fuel cur nxt).2 →
        c l[j]! l[j+1]! = false) := by
  intro fuel
  induction fuel with
  | zero =>
    intro cur nxt hcn hn hfuel
    have : nxt = n := by omega
    subst this
    rw [decScanAux]
    exact ⟨hcn, le_refl _, hn, fun j hj hj2 => by omega⟩
  | succ fuel ih =>
    intro cur nxt hcn hn hfuel
    rw [decScanAux]
    by_cases he : nxt = n
    · rw [if_pos he]
      exact ⟨hcn, le_refl _, hn, fun j hj hj2 => by omega⟩
    · rw [if_neg he]
      by_cases hc : c l[cur]! l[nxt]!
      · rw [if_pos hc]
        exact ⟨hcn, le_refl _, hn, fun j hj hj2 => by omega⟩
      · rw [if_neg hc]
        have hc' : c l[cur]! l[nxt]! = false := by simpa using hc
        have hrec := ih (cur + 1) (nxt + 1) (by omega) (by omega) (by omega)
        refine ⟨hrec.1, by omega, hrec.2.2.1, ?_⟩
        intro j hj hj2
        rcases Nat.lt_or_ge cur j with hlt | hge
        · exact hrec.2.2.2 j (by omega) hj2
        · have : j = cur := by omega
          subst this
          rw [hcn]
          exact hc'

theorem ascScanAux_spec [Inhabited α] (c : α → α → Bool) (l : List α) (n : Nat) :
    ∀ fuel cur nxt, cur + 1 = nxt → nxt ≤ n → n - nxt ≤ fuel →
      (ascScanAux c l n fuel cur nxt).1 + 1 = (ascScanAux c l n fuel cur nxt).2 ∧
      nxt ≤ (ascScanAux c l n fuel cur nxt).2 ∧
      (ascScanAux c l n fuel cur nxt).2 ≤ n ∧
      (∀ j, cur ≤ j → j + 1 < (ascScanAux c l n fuel cur nxt).2 →
        c l[j+1]! l[j]! = false) := by
  intro fuel
  induction fuel with
  | zero =>
    intro cur nxt hcn hn hfuel
    have : nxt = n := by omega
    subst this
    rw [ascScanAux]
    exact ⟨hcn, le_refl _, hn, fun j hj hj2 => by omega⟩
  | succ fuel ih =>
    intro cur nxt hcn hn hfuel
    rw [ascScanAux]
    by_cases he : nxt = n
    · rw [if_pos he]
      exact ⟨hcn, le_refl _, hn, fun j hj hj2 => by omega⟩
    · rw [if_neg he]
      by_cases hc : c l[nxt]! l[cur]!
      · rw [if_pos hc]
        exact ⟨hcn, le_refl _, hn, fun j hj hj2 => by omega⟩
      · rw [if_neg hc]
        have hc' : c l[nxt]! l[cur]! = false := by simpa using hc
        have hrec := ih (cur + 1) (nxt + 1) (by omega) (by omega) (by omega)
        refine ⟨hrec.1, by omega, hrec.2.2.1, ?_⟩
        intro j hj hj2
        rcases Nat.lt_or_ge cur j with hlt | hge
        · exact hrec.2.2.2 j (by omega) hj2
        · have : j = cur := by omega
          subst this
          rw [hcn]
          exact hc'

/-! ### The initial sortedness scan -/

theorem isSortedUntilAux_spec [Inhabited α] (c : α → α → Bool) (l : List α) (n : Nat) :
    ∀ fuel first, first < n → n - first ≤ fuel →
      first + 1 ≤ isSortedUntilAux c l n fuel first ∧
      isSortedUntilAux c l n fuel first ≤ n ∧
      (∀ j, first ≤ j → j + 1 < isSortedUntilAux c l n fuel first →
        c l[j+1]! l[j]! = false) := by
  intro fuel
  induction fuel with
  | zero =>
    intro first hf hfuel
    omega
  | succ fuel ih =>
    intro first hf hfuel
    rw [isSortedUntilAux]
    by_cases he : first + 1 = n
    · rw [if_pos he]
      exact ⟨by omega, le_refl n, fun j hj hj2 => by omega⟩
    · rw [if_neg he]
      by_cases hc : c l[first + 1]! l[first]!
      · rw [if_pos hc]
        exact ⟨le_refl _, by omega, fun j hj hj2 => by omega⟩
      · rw [if_neg hc]
        have hc' : c l[first + 1]! l[first]! = false := by simpa using hc
        have hrec := ih (first + 1) (by omega) (by omega)
        refine ⟨by omega, hrec.2.1, ?_⟩
        intro j hj hj2
        rcases Nat.lt_or_ge first j with hlt | hge
        · exact hrec.2.2 j (by omega) hj2
        · have : j = first := by omega
          subst this
          exact hc'

theorem is_sorted_until_spec [Inhabited α] (c : α → α → Bool) (l : List α) (n : Nat)
    (hn : 0 < n) :
    1 ≤ is_sorted_until c l 0 n ∧ is_sorted_until c l 0 n ≤ n ∧
    (∀ j, j + 1 < is_sorted_until c l 0 n → c l[j+1]! l[j]! = false) := by
  rw [is_sorted_until, if_neg (by omega)]
  have h := isSortedUntilAux_spec c l n (n - 0) 0 (by omega) (by omega)
  exact ⟨h.1, h.2.1, fun j hj => h.2.2 j (by omega) hj⟩

/-! ### The loop invariants -/

/-- Well-formedness of the loop state, independent of the comparator: the
sequence keeps its length, the cursors are an adjacent pair inside the range,
and the batch marker is the sentinel or lies at or before the cursor. -/
@[reducible] def BInv (n : Nat) (st : VState α) : Prop :=
  st.l.length = n ∧ st.cur + 1 = st.nxt ∧ st.nxt ≤ n ∧
  (st.bu = n ∨ st.bu ≤ st.cur)

/-- The sortedness invariant at the start of a run detection: the prefix up to
the pending-batch start (when a batch is pending), or up to the start of the
run about to be detected (when none is), is sorted. -/
@[reducible] def SInv (c : α → α → Bool) (n : Nat) (st : VState α) : Prop :=
  BInv n st ∧
  (st.bu = n → (slice st.l 0 st.cur).Pairwise (Asc c)) ∧
  (st.bu ≠ n → (slice st.l 0 st.bu).Pairwise (Asc c))

theorem descPhase_basic [Inhabited α] (c : α → α → Bool) (n limit : Nat) (st : VState α)
    (hlen : st.l.length = n) (hcn : st.cur + 1 = st.nxt) (hnn : st.nxt ≤ n)
    (hbu : st.bu = n ∨ st.bu ≤ st.cur) :
    (descPhase c n limit st).l.length = n ∧
    (descPhase c n limit st).cur + 1 = (descPhase c n limit st).nxt ∧
    (descPhase c n limit st).nxt ≤ n ∧
    st.nxt ≤ (descPhase c n limit st).nxt ∧
    ((descPhase c n limit st).bu = n ∨ (descPhase c n limit st).bu ≤ st.cur) ∧
    (descPhase c n limit st).l.Perm st.l := by
  have hscan := decScanAux_spec c st.l n n st.cur st.nxt hcn hnn (by omega)
  simp only [descPhase]
  set scan := decScanAux c st.l n n st.cur st.nxt with hscandef
  obtain ⟨hs1, hs2, hs3, _⟩ := hscan
  have hcur : st.cur < n := by omega
  have hcnx : st.cur < scan.2 := by omega
  by_cases hlong : scan.2 - st.cur > limit
  · rw [if_pos hlong]
    by_cases hpend : st.bu ≠ n
    · rw [if_pos hpend]
      have hbuc : st.bu ≤ st.cur := hbu.resolve_left hpend
      have e1 : (pdqsort c st.l st.bu st.cur).length = n := by
        rw [pdqsort_length c st.l st.bu st.cur hbuc (by omega), hlen]
      have e2 : (reverse_range (pdqsort c st.l st.bu st.cur) st.cur scan.2).length = n := by
        rw [reverse_range_length _ st.cur scan.2 (by omega) (by omega), e1]
      refine ⟨?_, hs1, hs3, hs2, .inl rfl, ?_⟩
      · rw [inplace_merge3_length c _ 0 st.bu st.cur scan.2 (by omega) hbuc (by omega)
          (by omega), e2]
      · refine (inplace_merge3_perm c _ 0 st.bu st.cur scan.2 (by omega) hbuc
          (by omega)).trans ?_
        refine (reverse_range_perm _ st.cur scan.2 (by omega)).trans ?_
        exact pdqsort_perm c st.l st.bu st.cur hbuc
    · rw [if_neg hpend]
      have e2 : (reverse_range st.l st.cur scan.2).length = n := by
        rw [reverse_range_length _ st.cur scan.2 (by omega) (by omega), hlen]
      refine ⟨?_, hs1, hs3, hs2, hbu, ?_⟩
      · rw [inplace_merge_length c _ 0 st.cur scan.2 (by omega) (by omega) (by omega), e2]
      · exact (inplace_merge_perm c _ 0 st.cur scan.2 (by omega) (by omega)).trans
          (reverse_range_perm _ st.cur scan.2 (by omega))
  · rw [if_neg hlong]
    refine ⟨hlen, hs1, hs3, hs2, ?_, List.Perm.refl _⟩
    by_cases hsent : st.bu = n
    · rw [if_pos hsent]
      exact .inr (le_refl _)
    · rw [if_neg hsent]
      exact .inr (hbu.resolve_left hsent)

theorem descPhase_sorted [Inhabited α] {c : α → α → Bool} (hsw : IsStrictWeakOrder c)
    (n limit : Nat) (st : VState α)
    (hlen : st.l.length = n) (hcn : st.cur + 1 = st.nxt) (hnn : st.nxt ≤ n)
    (hbu : st.bu = n ∨ st.bu ≤ st.cur)
    (hsorted1 : st.bu = n → (slice st.l 0 st.cur).Pairwise (Asc c))
    (hsorted2 : st.bu ≠ n → (slice st.l 0 st.bu).Pairwise (Asc c)) :
    ((descPhase c n limit st).bu = n →
      (slice (descPhase c n limit st).l 0 (descPhase c n limit st).nxt).Pairwise (Asc c)) ∧
    ((descPhase c n limit st).bu ≠ n →
      (slice (descPhase c n limit st).l 0 (descPhase c n limit st).bu).Pairwise (Asc c)) := by
  have hscan := decScanAux_spec c st.l n n st.cur st.nxt hcn hnn (by omega)
  simp only [descPhase]
  set scan := decScanAux c st.l n n st.cur st.nxt with hscandef
  obtain ⟨hs1, hs2, hs3, hs4⟩ := hscan
  have hcur : st.cur < n := by omega
  have hcnx : st.cur < scan.2 := by omega
  -- the detected run is non-increasing; reversed it is sorted
  have hrun : (slice st.l st.cur scan.2).Pairwise (fun x y => Asc c y x) := by
    refine pairwise_slice_of_adjacent _ ?_ st.l st.cur scan.2 (by omega) ?_
    · intro x y z hxy hyz
      exact hsw.asc_trans hyz hxy
    · intro j hj hj2
      exact hs4 j hj hj2
  have hrunrev : ((slice st.l st.cur scan.2).reverse).Pairwise (Asc c) := by
    rw [List.pairwise_reverse]
    exact hrun
  by_cases hlong : scan.2 - st.cur > limit
  · rw [if_pos hlong]
    by_cases hpend : st.bu ≠ n
    · rw [if_pos hpend]
      have hbuc : st.bu ≤ st.cur := hbu.resolve_left hpend
      have e1 : (pdqsort c st.l st.bu st.cur).length = n := by
        rw [pdqsort_length c st.l st.bu st.cur hbuc (by omega), hlen]
      have e2 : (reverse_range (pdqsort c st.l st.bu st.cur) st.cur scan.2).length = n := by
        rw [reverse_range_length _ st.cur scan.2 (by omega) (by omega), e1]
      constructor
      · intro _
        show (slice (inplace_merge3 c _ 0 st.bu st.cur scan.2) 0 scan.2).Pairwise (Asc c)
        refine inplace_merge3_sorted hsw _ 0 st.bu st.cur scan.2 (by omega) hbuc
          (by omega) (by omega) ?_ ?_ ?_
        · rw [reverse_range_slice_left _ st.cur scan.2 0 st.bu hbuc (by omega),
            pdqsort_slice_left c st.l st.bu st.cur 0 st.bu (le_refl _) (by omega)]
          exact hsorted2 hpend
        · rw [reverse_range_slice_left _ st.cur scan.2 st.bu st.cur (le_refl _) (by omega),
            pdqsort_slice_mid c st.l st.bu st.cur hbuc (by omega)]
          exact sortAsc_pairwise hsw _
        · rw [reverse_range_slice_mid _ st.cur scan.2 (by omega) (by omega),
            pdqsort_slice_right c st.l st.bu st.cur st.cur scan.2 (le_refl _) hbuc (by omega)]
          exact hrunrev
      · intro hne
        exact absurd rfl hne
    · rw [if_neg hpend]
      have hsent : st.bu = n := by
        by_contra hx
        exact hpend hx
      have e2 : (reverse_range st.l st.cur scan.2).length = n := by
        rw [reverse_range_length _ st.cur scan.2 (by omega) (by omega), hlen]
      constructor
      · intro _
        show (slice (inplace_merge c _ 0 st.cur scan.2) 0 scan.2).Pairwise (Asc c)
        refine inplace_merge_sorted hsw _ 0 st.cur scan.2 (by omega) (by omega)
          (by omega) ?_ ?_
        · rw [reverse_range_slice_left st.l st.cur scan.2 0 st.cur (le_refl _) (by omega)]
          exact hsorted1 hsent
        · rw [reverse_range_slice_mid st.l st.cur scan.2 (by omega) (by omega)]
          exact hrunrev
      · intro hne
        exact absurd hsent hne
  · rw [if_neg hlong]
    by_cases hsent : st.bu = n
    · rw [if_pos hsent]
      constructor
      · intro hc2
        exact absurd hc2 (by show st.cur ≠ n; omega)
      · intro _
        show (slice st.l 0 st.cur).Pairwise (Asc c)
        exact hsorted1 hsent
    · rw [if_neg hsent]
      constructor
      · intro hc2
        exact absurd hc2 hsent
      · intro _
        exact hsorted2 hsent

theorem ascPhase_basic [Inhabited α] (c : α → α → Bool) (n limit : Nat) (st : VState α)
    (hlen : st.l.length = n) (hcn : st.cur + 1 = st.nxt) (hnn : st.nxt ≤ n)
    (hbu : st.bu = n ∨ st.bu ≤ st.cur) :
    (ascPhase c n limit st).l.length = n ∧
    (ascPhase c n limit st).cur + 1 = (ascPhase c n limit st).nxt ∧
    (ascPhase c n limit st).nxt ≤ n ∧
    st.nxt ≤ (ascPhase c n limit st).nxt ∧
    ((ascPhase c n limit st).bu = n ∨ (ascPhase c n limit st).bu ≤ st.cur) ∧
    (ascPhase c n limit st).l.Perm st.l := by
  have hscan := ascScanAux_spec c st.l n n st.cur st.nxt hcn hnn (by omega)
  simp only [ascPhase]
  set scan := ascScanAux c st.l n n st.cur st.nxt with hscandef
  obtain ⟨hs1, hs2, hs3, _⟩ := hscan
  have hcur : st.cur < n := by omega
  have hcnx : st.cur < scan.2 := by omega
  by_cases hlong : scan.2 - st.cur > limit
  · rw [if_pos hlong]
    by_cases hpend : st.bu ≠ n
    · rw [if_pos hpend]
      have hbuc : st.bu ≤ st.cur := hbu.resolve_left hpend
      have e1 : (pdqsort c st.l st.bu st.cur).length = n := by
        rw [pdqsort_length c st.l st.bu st.cur hbuc (by omega), hlen]
      refine ⟨?_, hs1, hs3, hs2, .inl rfl, ?_⟩
      · rw [inplace_merge3_length c _ 0 st.bu st.cur scan.2 (by omega) hbuc (by omega)
          (by omega), e1]
      · exact (inplace_merge3_perm c _ 0 st.bu st.cur scan.2 (by omega) hbuc
          (by omega)).trans (pdqsort_perm c st.l st.bu st.cur hbuc)
    · rw [if_neg hpend]
      refine ⟨?_, hs1, hs3, hs2, hbu, ?_⟩
      · rw [inplace_merge_length c st.l 0 st.cur scan.2 (by omega) (by omega)
          (by omega), hlen]
      · exact inplace_merge_perm c st.l 0 st.cur scan.2 (by omega) (by omega)
  · rw [if_neg hlong]
    refine ⟨hlen, hs1, hs3, hs2, ?_, List.Perm.refl _⟩
    by_cases hsent : st.bu = n
    · rw [if_pos hsent]
      exact .inr (le_refl _)
    · rw [if_neg hsent]
      exact .inr (hbu.resolve_left hsent)

theorem ascPhase_sorted [Inhabited α] {c : α → α → Bool} (hsw : IsStrictWeakOrder c)
    (n limit : Nat) (st : VState α)
    (hlen : st.l.length = n) (hcn : st.cur + 1 = st.nxt) (hnn : st.nxt ≤ n)
    (hbu : st.bu = n ∨ st.bu ≤ st.cur)
    (hsorted1 : st.bu = n → (slice st.l 0 st.cur).Pairwise (Asc c))
    (hsorted2 : st.bu ≠ n → (slice st.l 0 st.bu).Pairwise (Asc c)) :
    ((ascPhase c n limit st).bu = n →
      (slice (ascPhase c n limit st).l 0 (ascPhase c n limit st).nxt).Pairwise (Asc c)) ∧
    ((ascPhase c n limit st).bu ≠ n →
      (slice (ascPhase c n limit st).l 0 (ascPhase c n limit st).bu).Pairwise (Asc c)) := by
  have hscan := ascScanAux_spec c st.l n n st.cur st.nxt hcn hnn (by omega)
  simp only [ascPhase]
  set scan := ascScanAux c st.l n n st.cur st.nxt with hscandef
  obtain ⟨hs1, hs2, hs3, hs4⟩ := hscan
  have hcur : st.cur < n := by omega
  have hcnx : st.cur < scan.2 := by omega
  -- the detected run is non-decreasing, hence sorted as it stands
  have hrun : (slice st.l st.cur scan.2).Pairwise (Asc c) := by
    refine pairwise_slice_of_adjacent _ ?_ st.l st.cur scan.2 (by omega) ?_
    · intro x y z hxy hyz
      exact hsw.asc_trans hxy hyz
    · intro j hj hj2
      exact hs4 j hj hj2
  by_cases hlong : scan.2 - st.cur > limit
  · rw [if_pos hlong]
    by_cases hpend : st.bu ≠ n
    · rw [if_pos hpend]
      have hbuc : st.bu ≤ st.cur := hbu.resolve_left hpend
      have e1 : (pdqsort c st.l st.bu st.cur).length = n := by
        rw [pdqsort_length c st.l st.bu st.cur hbuc (by omega), hlen]
      constructor
      · intro _
        show (slice (inplace_merge3 c _ 0 st.bu st.cur scan.2) 0 scan.2).Pairwise (Asc c)
        refine inplace_merge3_sorted hsw _ 0 st.bu st.cur scan.2 (by omega) hbuc
          (by omega) (by omega) ?_ ?_ ?_
        · rw [pdqsort_slice_left c st.l st.bu st.cur 0 st.bu (le_refl _) (by omega)]
          exact hsorted2 hpend
        · rw [pdqsort_slice_mid c st.l st.bu st.cur hbuc (by omega)]
          exact sortAsc_pairwise hsw _
        · rw [pdqsort_slice_right c st.l st.bu st.cur st.cur scan.2 (le_refl _) hbuc
            (by omega)]
          exact hrun
      · intro hne
        exact absurd rfl hne
    · rw [if_neg hpend]
      have hsent : st.bu = n := by
        by_contra hx
        exact hpend hx
      constructor
      · intro _
        show (slice (inplace_merge c st.l 0 st.cur scan.2) 0 scan.2).Pairwise (Asc c)
        refine inplace_merge_sorted hsw st.l 0 st.cur scan.2 (by omega) (by omega)
          (by omega) ?_ ?_
        · show (slice st.l 0 st.cur).Pairwise (Asc c)
          exact hsorted1 hsent
        · exact hrun
      · intro hne
        exact absurd hsent hne
  · rw [if_neg hlong]
    by_cases hsent : st.bu = n
    · rw [if_pos hsent]
      constructor
      · intro hc2
        exact absurd hc2 (by show st.cur ≠ n; omega)
      · intro _
        show (slice st.l 0 st.cur).Pairwise (Asc c)
        exact hsorted1 hsent
    · rw [if_neg hsent]
      constructor
      · intro hc2
        exact absurd hc2 hsent
      · intro _
        exact hsorted2 hsent

/-- State facts at a `break` of the main loop. -/
@[reducible] def BDone (n : Nat) (st : VState α) : Prop :=
  st.l.length = n ∧ st.bu ≤ n ∧ st.nxt = n

theorem vergeIter_basic [Inhabited α] (c : α → α → Bool) (n limit : Nat) (st : VState α)
    (hB : BInv n st) :
    (∀ st2, vergeIter c n limit st = Sum.inl st2 →
      BInv n st2 ∧ st2.l.Perm st.l ∧ st.nxt + 2 ≤ st2.nxt) ∧
    (∀ stF, vergeIter c n limit st = Sum.inr stF →
      BDone n stF ∧ stF.l.Perm st.l) := by
  obtain ⟨hlen, hcn, hnn, hbu⟩ := hB
  have hd := descPhase_basic c n limit st hlen hcn hnn hbu
  simp only [vergeIter]
  set s1 := descPhase c n limit st with hs1def
  obtain ⟨hd1, hd2, hd3, hd4, hd5, hd6⟩ := hd
  by_cases h1 : s1.nxt = n
  · rw [if_pos h1]
    constructor
    · intro st2 heq
      cases heq
    · intro stF heq
      obtain rfl : s1 = stF := Sum.inr.inj heq
      exact ⟨⟨hd1, by omega, h1⟩, hd6⟩
  · rw [if_neg h1]
    have ha := ascPhase_basic c n limit { s1 with cur := s1.cur + 1, nxt := s1.nxt + 1 }
      hd1 (by simp; omega) (by simp; omega) (by simp; omega)
    set s2 := ascPhase c n limit { s1 with cur := s1.cur + 1, nxt := s1.nxt + 1 }
      with hs2def
    obtain ⟨ha1, ha2, ha3, ha4, ha5, ha6⟩ := ha
    simp only [] at ha4 ha5
    by_cases h2 : s2.nxt = n
    · rw [if_pos h2]
      constructor
      · intro st2 heq
        cases heq
      · intro stF heq
        obtain rfl : s2 = stF := Sum.inr.inj heq
        exact ⟨⟨ha1, by omega, h2⟩, ha6.trans hd6⟩
    · rw [if_neg h2]
      constructor
      · intro st2 heq
        obtain rfl : ({ s2 with cur := s2.cur + 1, nxt := s2.nxt + 1 } : VState α) = st2 :=
          Sum.inl.inj heq
        refine ⟨⟨ha1, by simp; omega, by simp; omega, ?_⟩, ha6.trans hd6, by simp; omega⟩
        rcases ha5 with h | h
        · exact .inl h
        · refine .inr ?_
          simp
          omega
      · intro stF heq
        cases heq

theorem vergeIter_sorted [Inhabited α] {c : α → α → Bool} (hsw : IsStrictWeakOrder c)
    (n limit : Nat) (st : VState α) (hS : SInv c n st) :
    (∀ st2, vergeIter c n limit st = Sum.inl st2 → SInv c n st2) ∧
    (∀ stF, vergeIter c n limit st = Sum.inr stF →
      (stF.bu = n → (slice stF.l 0 n).Pairwise (Asc c)) ∧
      (stF.bu ≠ n → (slice stF.l 0 stF.bu).Pairwise (Asc c))) := by
  obtain ⟨⟨hlen, hcn, hnn, hbu⟩, hso1, hso2⟩ := hS
  have hd := descPhase_basic c n limit st hlen hcn hnn hbu
  have hds := descPhase_sorted hsw n limit st hlen hcn hnn hbu hso1 hso2
  simp only [vergeIter]
  set s1 := descPhase c n limit st with hs1def
  obtain ⟨hd1, hd2, hd3, hd4, hd5, hd6⟩ := hd
  obtain ⟨hds1, hds2⟩ := hds
  by_cases h1 : s1.nxt = n
  · rw [if_pos h1]
    constructor
    · intro st2 heq
      cases heq
    · intro stF heq
      obtain rfl : s1 = stF := Sum.inr.inj heq
      exact ⟨fun hb => h1 ▸ hds1 hb, hds2⟩
  · rw [if_neg h1]
    have hcc : st.cur ≤ s1.cur := by omega
    have hb' : s1.bu = n ∨ s1.bu ≤ s1.cur + 1 := by
      rcases hd5 with h | h
      · exact .inl h
      · exact .inr (by omega)
    have hso1' : s1.bu = n → (slice s1.l 0 (s1.cur + 1)).Pairwise (Asc c) := by
      intro hb
      have := hds1 hb
      rwa [← hd2] at this
    have ha := ascPhase_basic c n limit { s1 with cur := s1.cur + 1, nxt := s1.nxt + 1 }
      hd1 (by simp; omega) (by simp; omega) (by simp; omega)
    have has := ascPhase_sorted hsw n limit
      { s1 with cur := s1.cur + 1, nxt := s1.nxt + 1 }
      hd1 (by simp; omega) (by simp; omega) (by simp; omega)
      (by simpa using hso1') (by simpa using hds2)
    set s2 := ascPhase c n limit { s1 with cur := s1.cur + 1, nxt := s1.nxt + 1 }
      with hs2def
    obtain ⟨ha1, ha2, ha3, ha4, ha5, ha6⟩ := ha
    obtain ⟨has1, has2⟩ := has
    simp only [] at ha4 ha5
    by_cases h2 : s2.nxt = n
    · rw [if_pos h2]
      constructor
      · intro st2 heq
        cases heq
      · intro stF heq
        obtain rfl : s2 = stF := Sum.inr.inj heq
        exact ⟨fun hb => h2 ▸ has1 hb, has2⟩
    · rw [if_neg h2]
      constructor
      · intro st2 heq
        obtain rfl : ({ s2 with cur := s2.cur + 1, nxt := s2.nxt + 1 } : VState α) = st2 :=
          Sum.inl.inj heq
        refine ⟨⟨ha1, by simp; omega, by simp; omega, ?_⟩, ?_, ?_⟩
        · rcases ha5 with h | h
          · exact .inl h
          · refine .inr ?_
            simp
            omega
        · intro hb
          simp only [] at hb ⊢
          have := has1 hb
          rwa [← ha2] at this
        · intro hb
          simp only [] at hb ⊢
          exact has2 hb
      · intro stF heq
        cases heq

theorem vergeLoop_basic [Inhabited α] (c : α → α → Bool) (n limit : Nat) :
    ∀ fuel (st : VState α), BInv n st → n - st.nxt < fuel →
      BDone n (vergeLoop c n limit fuel st) ∧
      (vergeLoop c n limit fuel st).l.Perm st.l := by
  intro fuel
  induction fuel with
  | zero =>
    intro st hB hf
    omega
  | succ fuel ih =>
    intro st hB hf
    have hiter := vergeIter_basic c n limit st hB
    rw [vergeLoop]
    rcases hit : vergeIter c n limit st with st2 | stF
    · have h2 := hiter.1 st2 hit
      have hfuel2 : n - st2.nxt < fuel := by
        have := h2.1.2.2.1
        omega
      have hrec := ih st2 h2.1 hfuel2
      exact ⟨hrec.1, hrec.2.trans h2.2.1⟩
    · exact hiter.2 stF hit

theorem vergeLoop_sorted [Inhabited α] {c : α → α → Bool} (hsw : IsStrictWeakOrder c)
    (n limit : Nat) :
    ∀ fuel (st : VState α), SInv c n st → n - st.nxt < fuel →
      ((vergeLoop c n limit fuel st).bu = n →
        (slice (vergeLoop c n limit fuel st).l 0 n).Pairwise (Asc c)) ∧
      ((vergeLoop c n limit fuel st).bu ≠ n →
        (slice (vergeLoop c n limit fuel st).l 0
          (vergeLoop c n limit fuel st).bu).Pairwise (Asc c)) := by
  intro fuel
  induction fuel with
  | zero =>
    intro st hS hf
    omega
  | succ fuel ih =>
    intro st hS hf
    have hbasic := vergeIter_basic c n limit st hS.1
    have hiter := vergeIter_sorted hsw n limit st hS
    rw [vergeLoop]
    rcases hit : vergeIter c n limit st with st2 | stF
    · have h2 := hbasic.1 st2 hit
      have hfuel2 : n - st2.nxt < fuel := by
        have := h2.1.2.2.1
        omega
      exact ih st2 (hiter.1 st2 hit) hfuel2
    · exact hiter.2 stF hit

/-! ### Top-level behaviour of `vergesort` -/

theorem pdqsort_full (c : α → α → Bool) (l : List α) :
    pdqsort c l 0 l.length = sortAsc c l := by
  rw [pdqsort, slice_full]
  simp

theorem vergesort_perm_aux [Inhabited α] (c : α → α → Bool) (l : List α) :
    ((vergesort c l).1).Perm l := by
  by_cases h : l.length < 80
  · simp only [vergesort]
    rw [if_pos h]
    exact pdqsort_perm c l 0 l.length (Nat.zero_le _)
  · simp only [vergesort]
    rw [if_neg h]
    have hp := is_sorted_until_spec c l l.length (by omega)
    set p := is_sorted_until c l 0 l.length with hpdef
    set st0 : VState α := ⟨l, l.length, p - 1, (p - 1) + 1, ⟨0, 0, 0, []⟩⟩ with hst0
    have hB0 : BInv l.length st0 := ⟨rfl, rfl, by simp only [hst0]; omega, .inl rfl⟩
    have hloop := vergeLoop_basic c l.length (l.length / log2 l.length) (l.length + 1)
      st0 hB0 (by simp only [hst0]; omega)
    set stF := vergeLoop c l.length (l.length / log2 l.length) (l.length + 1) st0
      with hstF
    obtain ⟨⟨hF1, hF2, hF3⟩, hFperm⟩ := hloop
    by_cases hbu : stF.bu ≠ l.length
    · rw [if_pos hbu]
      show (inplace_merge c (pdqsort c stF.l stF.bu l.length) 0 stF.bu l.length).Perm l
      refine ((inplace_merge_perm c _ 0 stF.bu l.length (Nat.zero_le _) hF2).trans
        (pdqsort_perm c stF.l stF.bu l.length hF2)).trans hFperm
    · rw [if_neg hbu]
      exact hFperm

theorem vergesort_pairwise_aux [Inhabited α] {c : α → α → Bool}
    (hsw : IsStrictWeakOrder c) (l : List α) :
    ((vergesort c l).1).Pairwise (Asc c) := by
  by_cases h : l.length < 80
  · simp only [vergesort]
    rw [if_pos h]
    rw [pdqsort_full]
    exact sortAsc_pairwise hsw l
  · simp only [vergesort]
    rw [if_neg h]
    have hp := is_sorted_until_spec c l l.length (by omega)
    set p := is_sorted_until c l 0 l.length with hpdef
    obtain ⟨hp1, hp2, hp3⟩ := hp
    set st0 : VState α := ⟨l, l.length, p - 1, (p - 1) + 1, ⟨0, 0, 0, []⟩⟩ with hst0
    have hB0 : BInv l.length st0 := ⟨rfl, rfl, by simp only [hst0]; omega, .inl rfl⟩
    have hS0 : SInv c l.length st0 := by
      refine ⟨hB0, fun _ => ?_, fun hne => absurd rfl hne⟩
      refine pairwise_slice_of_adjacent (Asc c)
        (fun x y z hxy hyz => hsw.asc_trans hxy hyz) l 0 (p - 1) (by omega) ?_
      intro j hj hj2
      exact hp3 j (by omega)
    have hloopb := vergeLoop_basic c l.length (l.length / log2 l.length) (l.length + 1)
      st0 hB0 (by simp only [hst0]; omega)
    have hloops := vergeLoop_sorted hsw l.length (l.length / log2 l.length)
      (l.length + 1) st0 hS0 (by simp only [hst0]; omega)
    set stF := vergeLoop c l.length (l.length / log2 l.length) (l.length + 1) st0
      with hstF
    obtain ⟨⟨hF1, hF2, hF3⟩, hFperm⟩ := hloopb
    obtain ⟨hFs1, hFs2⟩ := hloops
    by_cases hbu : stF.bu ≠ l.length
    · rw [if_pos hbu]
      show (inplace_merge c (pdqsort c stF.l stF.bu l.length) 0 stF.bu l.length).Pairwise
        (Asc c)
      have e1 : (pdqsort c stF.l stF.bu l.length).length = l.length := by
        rw [pdqsort_length c stF.l stF.bu l.length hF2 (by omega), hF1]
      have s1 : (slice (pdqsort c stF.l stF.bu l.length) 0 stF.bu).Pairwise (Asc c) := by
        rw [pdqsort_slice_left c stF.l stF.bu l.length 0 stF.bu (le_refl _) (by omega)]
        exact hFs2 hbu
      have s2 : (slice (pdqsort c stF.l stF.bu l.length) stF.bu l.length).Pairwise
          (Asc c) :=
        pdqsort_sorted hsw stF.l stF.bu l.length hF2 (by omega)
      have hall := inplace_merge_sorted hsw _ 0 stF.bu l.length (Nat.zero_le _) hF2
        (by omega) s1 s2
      have e2 : (inplace_merge c (pdqsort c stF.l stF.bu l.length) 0 stF.bu
          l.length).length = l.length := by
        rw [inplace_merge_length c _ 0 stF.bu l.length (Nat.zero_le _) hF2 (by omega), e1]
      rw [← slice_full (inplace_merge c (pdqsort c stF.l stF.bu l.length) 0 stF.bu
        l.length), e2]
      exact hall
    · rw [if_neg hbu]
      have := hFs1 (by omega)
      rwa [← hF1, slice_full] at this

/-! ### Recognising sorted and reverse-sorted inputs -/

/-- `sortedAdj compare l` checks that no adjacent pair of `l` is inverted,
i.e. that `l` is already sorted in the sense of the spec's correctness
property. -/
def sortedAdj (compare : α → α → Bool) : List α → Bool
  | [] => true
  | [_] => true
  | a :: b :: r => !compare b a && sortedAdj compare (b :: r)

/-- `strictlyDescending compare l` checks that every adjacent pair of `l` is
strictly decreasing, i.e. that `l` is fully reverse-sorted. -/
def strictlyDescending (compare : α → α → Bool) : List α → Bool
  | [] => true
  | [_] => true
  | a :: b :: r => compare b a && strictlyDescending compare (b :: r)

theorem sortedAdj_spec [Inhabited α] (c : α → α → Bool) :
    ∀ l : List α, sortedAdj c l = true →
      ∀ i, i + 1 < l.length → c l[i + 1]! l[i]! = false
  | [] => by intro _ i hi; simp at hi
  | [a] => by intro _ i hi; simp at hi
  | a :: b :: r => by
    intro hs i hi
    rw [sortedAdj, Bool.and_eq_true] at hs
    match i with
    | 0 =>
      have : c b a = false := by
        have := hs.1
        simp at this
        exact this
      simpa using this
    | i + 1 =>
      have hrec := sortedAdj_spec c (b :: r) hs.2 i (by simp at hi ⊢; omega)
      have e1 : (a :: b :: r)[i + 1 + 1]! = (b :: r)[i + 1]! := by
        rw [getElem!_pos (a :: b :: r) (i + 2) (by simp at hi ⊢; omega),
          getElem!_pos (b :: r) (i + 1) (by simp at hi ⊢; omega)]
        simp
      have e2 : (a :: b :: r)[i + 1]! = (b :: r)[i]! := by
        rw [getElem!_pos (a :: b :: r) (i + 1) (by simp at hi ⊢; omega),
          getElem!_pos (b :: r) i (by simp at hi ⊢; omega)]
        simp
      rw [e1, e2]
      exact hrec

theorem strictlyDescending_spec [Inhabited α] (c : α → α → Bool) :
    ∀ l : List α, strictlyDescending c l = true →
      ∀ i, i + 1 < l.length → c l[i + 1]! l[i]! = true
  | [] => by intro _ i hi; simp at hi
  | [a] => by intro _ i hi; simp at hi
  | a :: b :: r => by
    intro hs i hi
    rw [strictlyDescending, Bool.and_eq_true] at hs
    match i with
    | 0 => simpa using hs.1
    | i + 1 =>
      have hrec := strictlyDescending_spec c (b :: r) hs.2 i (by simp at hi ⊢; omega)
      have e1 : (a :: b :: r)[i + 1 + 1]! = (b :: r)[i + 1]! := by
        rw [getElem!_pos (a :: b :: r) (i + 2) (by simp at hi ⊢; omega),
          getElem!_pos (b :: r) (i + 1) (by simp at hi ⊢; omega)]
        simp
      have e2 : (a :: b :: r)[i + 1]! = (b :: r)[i]! := by
        rw [getElem!_pos (a :: b :: r) (i + 1) (by simp at hi ⊢; omega),
          getElem!_pos (b :: r) i (by simp at hi ⊢; omega)]
        simp
      rw [e1, e2]
      exact hrec

/-! ### Trace lemmas for the special-input claims -/

/-- The scans return immediately when the cursor already sits at the end. -/
theorem decScanAux_at_end [Inhabited α] (c : α → α → Bool) (l : List α) (last : Nat) :
    ∀ fuel cur, decScanAux c l last fuel cur last = (cur, last) := by
  intro fuel cur
  cases fuel with
  | zero => rfl
  | succ fuel => rw [decScanAux, if_pos rfl]

/-- On input with no adjacent inversion the initial scan walks to the end. -/
theorem isSortedUntilAux_sorted [Inhabited α] (c : α → α → Bool) (l : List α) (n : Nat)
    (hsorted : ∀ j, j + 1 < n → c l[j + 1]! l[j]! = false) :
    ∀ fuel first, first < n → n - first ≤ fuel →
      isSortedUntilAux c l n fuel first = n := by
  intro fuel
  induction fuel with
  | zero =>
    intro first h1 h2
    omega
  | succ fuel ih =>
    intro first h1 h2
    rw [isSortedUntilAux]
    by_cases he : first + 1 = n
    · rw [if_pos he]
    · rw [if_neg he, if_neg (by rw [hsorted first (by omega)]; simp)]
      exact ih (first + 1) (by omega) (by omega)

theorem is_sorted_until_sorted [Inhabited α] (c : α → α → Bool) (l : List α) (n : Nat)
    (hn : 0 < n) (hsorted : ∀ j, j + 1 < n → c l[j + 1]! l[j]! = false) :
    is_sorted_until c l 0 n = n := by
  rw [is_sorted_until, if_neg (by omega)]
  exact isSortedUntilAux_sorted c l n hsorted (n - 0) 0 hn (by omega)

/-- On input whose first adjacent pair is inverted the initial scan stops at 1. -/
theorem is_sorted_until_inverted [Inhabited α] (c : α → α → Bool) (l : List α) (n : Nat)
    (hn : 2 ≤ n) (hinv : c l[1]! l[0]! = true) :
    is_sorted_until c l 0 n = 1 := by
  rw [is_sorted_until, if_neg (by omega)]
  have h1 : n - 0 = (n - 1 - 0) + 1 := by omega
  rw [h1, isSortedUntilAux, if_neg (by omega), if_pos hinv]

/-- On fully reverse-sorted input the decreasing scan walks to the end. -/
theorem decScanAux_full [Inhabited α] (c : α → α → Bool) (l : List α) (n : Nat)
    (hdesc : ∀ j, j + 1 < n → c l[j]! l[j + 1]! = false) :
    ∀ fuel cur nxt, cur + 1 = nxt → nxt ≤ n → n - nxt ≤ fuel →
      decScanAux c l n fuel cur nxt = (n - 1, n) := by
  intro fuel
  induction fuel with
  | zero =>
    intro cur nxt h1 h2 h3
    have : nxt = n := by omega
    subst this
    rw [decScanAux]
    congr 1
    omega
  | succ fuel ih =>
    intro cur nxt h1 h2 h3
    by_cases he : nxt = n
    · subst he
      rw [decScanAux_at_end]
      congr 1
      omega
    · have hd : c l[cur]! l[nxt]! = false := by
        have := hdesc cur (by omega)
        rwa [h1] at this
      rw [decScanAux, if_neg he, if_neg (by rw [hd]; simp)]
      exact ih (cur + 1) (nxt + 1) (by omega) (by omega) (by omega)

theorem reverse_range_full (l : List α) : reverse_range l 0 l.length = l.reverse := by
  rw [reverse_range, slice_full]
  simp

/-- A two-way merge whose left part is empty returns the list unchanged. -/
theorem inplace_merge_degenerate (c : α → α → Bool) (l : List α) :
    inplace_merge c l 0 0 l.length = l := by
  rw [inplace_merge, slice_self, mergePair_nil_left, slice_full]
  simp

/-- Merging a single trailing element that all earlier elements precede is the
identity. -/
theorem mergePair_all_le (c : α → α → Bool) :
    ∀ (xs : List α) (z : α), (∀ x ∈ xs, c z x = false) →
      mergePair c xs [z] = xs ++ [z]
  | [], z => by intro _; rfl
  | x :: xs, z => by
    intro hall
    rw [mergePair_cons_cons, if_neg (by rw [hall x (List.mem_cons_self x xs)]; simp),
      mergePair_all_le c xs z (fun y hy => hall y (List.mem_cons_of_mem x hy))]
    rfl

/-- Full trace of `vergesort` on a reverse-sorted input of length at least 80:
one long descending run covering the whole range, one reversal, one trivial
merge against the empty prefix, no fallback call. -/
theorem vergesort_descending_eq [Inhabited α] {c : α → α → Bool}
    (hsw : IsStrictWeakOrder c) (l : List α)
    (hd : strictlyDescending c l = true) (hn : 80 ≤ l.length) :
    vergesort c l = (l.reverse, ⟨0, 1, 1, [l.length / log2 l.length]⟩) := by
  have hadj : ∀ i, i + 1 < l.length → c l[i + 1]! l[i]! = true :=
    strictlyDescending_spec c l hd
  have hadj2 : ∀ j, j + 1 < l.length → c l[j]! l[j + 1]! = false := fun j hj =>
    hsw.asymm _ _ (hadj j hj)
  have hisu : is_sorted_until c l 0 l.length = 1 :=
    is_sorted_until_inverted c l l.length (by omega) (hadj 0 (by omega))
  have hscan : decScanAux c l l.length l.length 0 1 = (l.length - 1, l.length) :=
    decScanAux_full c l l.length hadj2 l.length 0 1 rfl (by omega) (by omega)
  have hlog : 2 ≤ log2 l.length := two_le_log2 l.length (by omega)
  have hlimitlt : l.length / log2 l.length < l.length :=
    Nat.div_lt_self (by omega) (by omega)
  have hmergedeg : inplace_merge c (reverse_range l 0 l.length) 0 0 l.length
      = l.reverse := by
    rw [reverse_range_full]
    have e : l.length = l.reverse.length := (List.length_reverse l).symm
    rw [e]
    exact inplace_merge_degenerate c l.reverse
  have hphase : descPhase c l.length (l.length / log2 l.length)
      ⟨l, l.length, 0, 1, ⟨0, 0, 0, []⟩⟩
      = ⟨l.reverse, l.length, l.length - 1, l.length,
          ⟨0, 1, 1, [l.length / log2 l.length]⟩⟩ := by
    simp only [descPhase, hscan]
    rw [if_pos (by simp; omega), if_neg (by simp)]
    rw [hmergedeg]
    simp
  have hiter : vergeIter c l.length (l.length / log2 l.length)
      ⟨l, l.length, 0, 1, ⟨0, 0, 0, []⟩⟩
      = Sum.inr ⟨l.reverse, l.length, l.length - 1, l.length,
          ⟨0, 1, 1, [l.length / log2 l.length]⟩⟩ := by
    simp only [vergeIter, hphase, if_true]
  have hloop : vergeLoop c l.length (l.length / log2 l.length) (l.length + 1)
      ⟨l, l.length, 0, 1, ⟨0, 0, 0, []⟩⟩
      = ⟨l.reverse, l.length, l.length - 1, l.length,
          ⟨0, 1, 1, [l.length / log2 l.length]⟩⟩ := by
    rw [vergeLoop, hiter]
  simp only [vergesort]
  rw [if_neg (by omega), hisu]
  have e0 : (1 : Nat) - 1 = 0 := rfl
  rw [e0, hloop]
  rw [if_neg (by simp)]

/-- Full trace of `vergesort` on a sorted input of length at least 80: the
initial scan reaches the end, the main loop sees one final one-element run,
batches it, and the final flush sub-sorts and merges that single element —
two calls that leave the sequence unchanged. -/
theorem vergesort_sorted_input_eq [Inhabited α] {c : α → α → Bool}
    (hsw : IsStrictWeakOrder c) (l : List α)
    (hs : sortedAdj c l = true) (hn : 80 ≤ l.length) :
    vergesort c l = (l, ⟨1, 1, 0, [l.length / log2 l.length]⟩) := by
  have hadj : ∀ i, i + 1 < l.length → c l[i + 1]! l[i]! = false := sortedAdj_spec c l hs
  have hisu : is_sorted_until c l 0 l.length = l.length :=
    is_sorted_until_sorted c l l.length (by omega) hadj
  have hlog : 2 ≤ log2 l.length := two_le_log2 l.length (by omega)
  have hlimit1 : 1 ≤ l.length / log2 l.length :=
    (Nat.one_le_div_iff (by omega)).mpr (log2_le l.length)
  have hpair : l.Pairwise (Asc c) := by
    have := pairwise_slice_of_adjacent (Asc c)
      (fun x y z hxy hyz => hsw.asc_trans hxy hyz) l 0 l.length (le_refl _)
      (fun j _ hj2 => hadj j hj2)
    rwa [slice_full] at this
  have hslen : (slice l (l.length - 1) l.length).length = 1 := by
    rw [slice_length l _ _ (le_refl _)]
    omega
  obtain ⟨a, ha⟩ := List.length_eq_one.mp hslen
  have hsplit : l.take (l.length - 1) ++ [a] = l := by
    have h1 := take_slice_drop l (l.length - 1) l.length (by omega)
    rwa [ha, List.drop_eq_nil_of_le (le_refl _), List.append_nil] at h1
  have hallle : ∀ x ∈ l.take (l.length - 1), c a x = false := by
    have hp2 : (l.take (l.length - 1) ++ [a]).Pairwise (Asc c) := by
      rw [hsplit]
      exact hpair
    have := (List.pairwise_append.mp hp2).2.2
    intro x hx
    exact this x hx a (List.mem_singleton_self a)
  have hpdq : pdqsort c l (l.length - 1) l.length = l := by
    rw [pdqsort, ha]
    show l.take (l.length - 1) ++ insertAsc c a (sortAsc c []) ++ l.drop l.length = l
    rw [show insertAsc c a (sortAsc c []) = [a] from rfl,
      List.drop_eq_nil_of_le (le_refl _), List.append_nil, hsplit]
  have hmerge : inplace_merge c l 0 (l.length - 1) l.length = l := by
    rw [inplace_merge, ha, slice_zero, mergePair_all_le c _ a hallle,
      List.drop_eq_nil_of_le (le_refl _), List.append_nil, List.take_zero,
      List.nil_append, hsplit]
  have hphase : descPhase c l.length (l.length / log2 l.length)
      ⟨l, l.length, l.length - 1, l.length, ⟨0, 0, 0, []⟩⟩
      = ⟨l, l.length - 1, l.length - 1, l.length,
          ⟨0, 0, 0, [l.length / log2 l.length]⟩⟩ := by
    simp only [descPhase, decScanAux_at_end]
    rw [if_neg (by simp; omega), if_pos (by simp)]
    simp
  have hiter : vergeIter c l.length (l.length / log2 l.length)
      ⟨l, l.length, l.length - 1, l.length, ⟨0, 0, 0, []⟩⟩
      = Sum.inr ⟨l, l.length - 1, l.length - 1, l.length,
          ⟨0, 0, 0, [l.length / log2 l.length]⟩⟩ := by
    simp only [vergeIter, hphase, if_true]
  have hloop : vergeLoop c l.length (l.length / log2 l.length) (l.length + 1)
      ⟨l, l.length, l.length - 1, l.length, ⟨0, 0, 0, []⟩⟩
      = ⟨l, l.length - 1, l.length - 1, l.length,
          ⟨0, 0, 0, [l.length / log2 l.length]⟩⟩ := by
    rw [vergeLoop, hiter]
  simp only [vergesort]
  rw [if_neg (by omega), hisu, show l.length - 1 + 1 = l.length by omega, hloop,
    if_pos (by simp; omega)]
  simp only []
  rw [hpdq, hmerge]

/-- Trace of `vergesort` on an empty or one-element input: the below-cutoff
branch hands the trivial range to the fallback once; the sequence is
unchanged and no merge or reversal happens. -/
theorem vergesort_trivial_eq [Inhabited α] (c : α → α → Bool) (l : List α)
    (h : l.length ≤ 1) :
    vergesort c l = (l, ⟨1, 0, 0, []⟩) := by
  have h80 : l.length < 80 := by omega
  simp only [vergesort]
  rw [if_pos h80, pdqsort_full]
  rcases l with _ | ⟨a, _ | ⟨b, r⟩⟩
  · rfl
  · rfl
  · simp at h

/-! ### Every classification uses the once-computed threshold -/

theorem descPhase_limits [Inhabited α] (c : α → α → Bool) (n limit : Nat)
    (st : VState α) :
    (descPhase c n limit st).stats.limits = st.stats.limits ++ [limit] := by
  simp only [descPhase]
  by_cases h1 : (decScanAux c st.l n n st.cur st.nxt).2 - st.cur > limit
  · rw [if_pos h1]
    by_cases h2 : st.bu ≠ n
    · rw [if_pos h2]
    · rw [if_neg h2]
  · rw [if_neg h1]

theorem ascPhase_limits [Inhabited α] (c : α → α → Bool) (n limit : Nat)
    (st : VState α) :
    (ascPhase c n limit st).stats.limits = st.stats.limits ++ [limit] := by
  simp only [ascPhase]
  by_cases h1 : (ascScanAux c st.l n n st.cur st.nxt).2 - st.cur > limit
  · rw [if_pos h1]
    by_cases h2 : st.bu ≠ n
    · rw [if_pos h2]
    · rw [if_neg h2]
  · rw [if_neg h1]

theorem vergeIter_limits [Inhabited α] (c : α → α → Bool) (n limit : Nat)
    (st : VState α) :
    (∀ st2, vergeIter c n limit st = Sum.inl st2 →
      ∀ x ∈ st2.stats.limits, x ∈ st.stats.limits ∨ x = limit) ∧
    (∀ stF, vergeIter c n limit st = Sum.inr stF →
      ∀ x ∈ stF.stats.limits, x ∈ st.stats.limits ∨ x = limit) := by
  simp only [vergeIter]
  set s1 := descPhase c n limit st with hs1
  have e1 : s1.stats.limits = st.stats.limits ++ [limit] := descPhase_limits c n limit st
  by_cases h1 : s1.nxt = n
  · rw [if_pos h1]
    constructor
    · intro st2 heq
      cases heq
    · intro stF heq x hx
      obtain rfl : s1 = stF := Sum.inr.inj heq
      rw [e1, List.mem_append] at hx
      rcases hx with hx | hx
      · exact .inl hx
      · exact .inr (List.mem_singleton.mp hx)
  · rw [if_neg h1]
    set s2 := ascPhase c n limit { s1 with cur := s1.cur + 1, nxt := s1.nxt + 1 }
      with hs2
    have e2 : s2.stats.limits = st.stats.limits ++ [limit] ++ [limit] := by
      rw [hs2, ascPhase_limits]
      simp only []
      rw [e1]
    have hmem : ∀ x ∈ s2.stats.limits, x ∈ st.stats.limits ∨ x = limit := by
      intro x hx
      rw [e2, List.mem_append, List.mem_append] at hx
      rcases hx with (hx | hx) | hx
      · exact .inl hx
      · exact .inr (List.mem_singleton.mp hx)
      · exact .inr (List.mem_singleton.mp hx)
    by_cases h2 : s2.nxt = n
    · rw [if_pos h2]
      constructor
      · intro st2 heq
        cases heq
      · intro stF heq x hx
        obtain rfl : s2 = stF := Sum.inr.inj heq
        exact hmem x hx
    · rw [if_neg h2]
      constructor
      · intro st2 heq x hx
        obtain rfl : ({ s2 with cur := s2.cur + 1, nxt := s2.nxt + 1 } : VState α) = st2 :=
          Sum.inl.inj heq
        exact hmem x hx
      · intro stF heq
        cases heq

theorem vergeLoop_limits [Inhabited α] (c : α → α → Bool) (n limit : Nat) :
    ∀ fuel (st : VState α) x, x ∈ (vergeLoop c n limit fuel st).stats.limits →
      x ∈ st.stats.limits ∨ x = limit := by
  intro fuel
  induction fuel with
  | zero =>
    intro st x hx
    exact .inl hx
  | succ fuel ih =>
    intro st x hx
    rw [vergeLoop] at hx
    have hiter := vergeIter_limits c n limit st
    rcases hit : vergeIter c n limit st with st2 | stF
    · rw [hit] at hx
      rcases ih st2 x hx with hmem | heq
      · exact hiter.1 st2 hit x hmem
      · exact .inr heq
    · rw [hit] at hx
      exact hiter.2 stF hit x hx

theorem vergesort_limits_aux [Inhabited α] (c : α → α → Bool) (l : List α)
    (h : ¬ l.length < 80) :
    ∀ x ∈ (vergesort c l).2.limits, x = l.length / log2 l.length := by
  simp only [vergesort]
  rw [if_neg h]
  set st0 : VState α := ⟨l, l.length, is_sorted_until c l 0 l.length - 1,
    (is_sorted_until c l 0 l.length - 1) + 1, ⟨0, 0, 0, []⟩⟩ with hst0
  set stF := vergeLoop c l.length (l.length / log2 l.length) (l.length + 1) st0
    with hstF
  have hloop := vergeLoop_limits c l.length (l.length / log2 l.length) (l.length + 1)
    st0
  intro x hx
  by_cases hbu : stF.bu ≠ l.length
  · rw [if_pos hbu] at hx
    rcases hloop x hx with hmem | heq
    · simp only [hst0] at hmem
      simp at hmem
    · exact heq
  · rw [if_neg hbu] at hx
    rcases hloop x hx with hmem | heq
    · simp only [hst0] at hmem
      simp at hmem
    · exact heq

/-! ### The natural-number comparator -/

theorem natLt_swo : IsStrictWeakOrder natLt := by
  constructor
  · intro a
    simp [natLt]
  · intro a b c hab hbc
    simp only [natLt, decide_eq_true_eq] at hab hbc ⊢
    omega
  · intro a b c hab hbc
    simp only [natLt, decide_eq_false_iff_not] at hab hbc ⊢
    omega

theorem sortedAdj_pairwise [Inhabited α] {compare : α → α → Bool}
    (hsw : IsStrictWeakOrder compare) (l : List α) (hs : sortedAdj compare l = true) :
    l.Pairwise (Asc compare) := by
  have := pairwise_slice_of_adjacent (Asc compare)
    (fun x y z hxy hyz => hsw.asc_trans hxy hyz) l 0 l.length (le_refl _)
    (fun j _ hj2 => sortedAdj_spec compare l hs j hj2)
  rwa [slice_full] at this

/-! ### The claims -/

/-- Claim C1: for every sequence `S` and every strict-weak-order comparator
`C`, after `vergesort(first, last, C)` completes, the sequence is fully
ordered under `C`: for every adjacent pair of positions `i < len(S) - 1`,
`C(S[i+1], S[i])` is false. -/
theorem vergesort_sorts [Inhabited α] (compare : α → α → Bool) (l : List α)
    (hsw : IsStrictWeakOrder compare) :
    ∀ i, i + 1 < ((vergesort compare l).1).length →
      compare ((vergesort compare l).1)[i + 1]! ((vergesort compare l).1)[i]!
        = false := by
  intro i hi
  have hp := vergesort_pairwise_aux hsw l
  rw [getElem!_pos ((vergesort compare l).1) (i + 1) hi,
    getElem!_pos ((vergesort compare l).1) i (by omega)]
  exact List.pairwise_iff_getElem.mp hp i (i + 1) (by omega) hi (by omega)

/-- Witness for C1 at the concrete input `[3, 1, 2]`. -/
theorem vergesort_sorts_witness :
    IsStrictWeakOrder natLt ∧ 0 + 1 < ((vergesort natLt [3, 1, 2]).1).length ∧
    natLt ((vergesort natLt [3, 1, 2]).1)[0 + 1]! ((vergesort natLt [3, 1, 2]).1)[0]!
      = false :=
  ⟨natLt_swo, by decide, vergesort_sorts natLt [3, 1, 2] natLt_swo 0 (by decide)⟩

/-- Claim C2: for every sequence and comparator, the sequence after
`vergesort` is a permutation of the sequence before the call — the multiset
of elements is unchanged. -/
theorem vergesort_permutes [Inhabited α] (compare : α → α → Bool) (l : List α) :
    ((vergesort compare l).1).Perm l :=
  vergesort_perm_aux compare l

/-- Counterexample for C3: on the already-sorted input `List.range 80` the
routine does not return immediately after the scan with no merge and no
sub-sort work — it performs one merge call and one fallback call (the claim
requires none). -/
theorem vergesort_sorted_input_counterexample :
    sortedAdj natLt (List.range 80) = true ∧
    (vergesort natLt (List.range 80)).2.merges = 1 ∧
    (vergesort natLt (List.range 80)).2.pdq = 1 ∧
    ¬ ((vergesort natLt (List.range 80)).2.merges = 0) := by
  decide

/-- Claim C3 as amended: sorting an already-sorted sequence produces the same
sequence and performs no reversal; sortedness is found by the forward scan,
but the routine does not return immediately: it makes exactly one fallback
call (on the whole range when `n < 80`, on the trailing one-element batch
otherwise) and at most one merge call, none of which changes the sequence. -/
theorem vergesort_sorted_input [Inhabited α] {compare : α → α → Bool} (l : List α)
    (hsw : IsStrictWeakOrder compare) (hs : sortedAdj compare l = true) :
    (vergesort compare l).1 = l ∧ (vergesort compare l).2.revs = 0 ∧
    (vergesort compare l).2.pdq = 1 ∧ (vergesort compare l).2.merges ≤ 1 := by
  by_cases h : l.length < 80
  · simp only [vergesort]
    rw [if_pos h, pdqsort_full, sortAsc_of_pairwise l (sortedAdj_pairwise hsw l hs)]
    exact ⟨rfl, rfl, rfl, Nat.zero_le 1⟩
  · rw [vergesort_sorted_input_eq hsw l hs (by omega)]
    exact ⟨rfl, rfl, rfl, le_refl 1⟩

/-- Witness for the amended C3 at the concrete sorted input `[1, 2, 3]`. -/
theorem vergesort_sorted_input_witness :
    sortedAdj natLt [1, 2, 3] = true ∧
    ((vergesort natLt [1, 2, 3]).1 = [1, 2, 3] ∧
      (vergesort natLt [1, 2, 3]).2.revs = 0 ∧
      (vergesort natLt [1, 2, 3]).2.pdq = 1 ∧
      (vergesort natLt [1, 2, 3]).2.merges ≤ 1) :=
  ⟨by decide, vergesort_sorted_input [1, 2, 3] natLt_swo (by decide)⟩

/-- Counterexample for C4: on a length-80 input the one threshold the call
classifies runs against is `80 / log2 80 = 13`, while the spec's stated
formula `size / log2(size) * 0.9` gives `11` — the factor `0.9` is not in the
source's threshold. -/
theorem unstable_limit_counterexample :
    (vergesort natLt ((List.range 80).reverse)).2.limits = [13] ∧
    13 = 80 / log2 80 ∧ specThreshold 80 = 11 ∧ ¬ ((13 : Nat) = 11) := by
  decide

/-- Claim C4 as amended: for every call on a range of length `n ≥ 80`, the
unstable-limit threshold equals `n / log2 n` (integer division, floor base-2
logarithm, no `0.9` factor), is derived once per call from the total sequence
length, and every run classification during that call uses this same
value. -/
theorem unstable_limit_value [Inhabited α] (compare : α → α → Bool) (l : List α)
    (h : 80 ≤ l.length) :
    ∀ x ∈ (vergesort compare l).2.limits, x = l.length / log2 l.length :=
  vergesort_limits_aux compare l (by omega)

/-- Witness for the amended C4: the threshold recorded on a concrete
length-80 call equals `80 / log2 80`. -/
theorem unstable_limit_value_witness :
    80 ≤ ((List.range 80).reverse).length ∧
    13 ∈ (vergesort natLt ((List.range 80).reverse)).2.limits ∧
    13 = ((List.range 80).reverse).length / log2 ((List.range 80).reverse).length :=
  ⟨by decide, by decide,
    unstable_limit_value natLt ((List.range 80).reverse) (by decide) 13 (by decide)⟩

/-- Counterexample for C5: on the one-element input `[5]` the code does call
the fallback sub-sort (once, on the trivial range), while the claim says no
such call is made. -/
theorem trivial_input_counterexample :
    (vergesort natLt [5]).1 = [5] ∧ (vergesort natLt [5]).2.pdq = 1 ∧
    ¬ ((vergesort natLt [5]).2.pdq = 0) := by
  decide

/-- Claim C5 as amended: for `n = 0` and `n = 1` the sequence is returned
unchanged with no merge and no reversal, but the below-cutoff path delegates
the trivial range to the fallback sub-sort once (a no-op on the sequence). -/
theorem vergesort_trivial [Inhabited α] (compare : α → α → Bool) (l : List α)
    (h : l.length ≤ 1) :
    (vergesort compare l).1 = l ∧
    (vergesort compare l).2 = ⟨1, 0, 0, []⟩ := by
  rw [vergesort_trivial_eq compare l h]
  exact ⟨rfl, rfl⟩

/-- Witness for the amended C5 at the concrete input `[5]`. -/
theorem vergesort_trivial_witness :
    ([5] : List Nat).length ≤ 1 ∧
    ((vergesort natLt [5]).1 = [5] ∧ (vergesort natLt [5]).2 = ⟨1, 0, 0, []⟩) :=
  ⟨by decide, vergesort_trivial natLt [5] (by decide)⟩

/-- Claim C6: for every input of length `n < 80` and every comparator, the
sequence produced by `vergesort` is identical to the one produced by invoking
the fallback sub-sort directly on the whole range with the same comparator. -/
theorem vergesort_below_cutoff [Inhabited α] (compare : α → α → Bool) (l : List α)
    (h : l.length < 80) :
    (vergesort compare l).1 = pdqsort compare l 0 l.length := by
  simp only [vergesort]
  rw [if_pos h]

/-- Witness for C6 at the concrete input `[3, 1, 2]`. -/
theorem vergesort_below_cutoff_witness :
    ([3, 1, 2] : List Nat).length < 80 ∧
    (vergesort natLt [3, 1, 2]).1 = pdqsort natLt [3, 1, 2] 0 ([3, 1, 2] : List Nat).length :=
  ⟨by decide, vergesort_below_cutoff natLt [3, 1, 2] (by decide)⟩

/-- Claim C7: a fully reverse-sorted input of length at least 80 is
recognised as one long descending run covering the whole range: it is
reversed exactly once (so the result is the input reversed) and the fallback
sub-sort is never invoked. -/
theorem vergesort_descending [Inhabited α] {compare : α → α → Bool} (l : List α)
    (hsw : IsStrictWeakOrder compare)
    (hd : strictlyDescending compare l = true) (hn : 80 ≤ l.length) :
    (vergesort compare l).1 = l.reverse ∧
    (vergesort compare l).2.revs = 1 ∧
    (vergesort compare l).2.pdq = 0 := by
  rw [vergesort_descending_eq hsw l hd hn]
  exact ⟨rfl, rfl, rfl⟩

/-- Witness for C7 at the concrete input `79, 78, ..., 0`. -/
theorem vergesort_descending_witness :
    strictlyDescending natLt ((List.range 80).reverse) = true ∧
    80 ≤ ((List.range 80).reverse).length ∧
    ((vergesort natLt ((List.range 80).reverse)).1 = ((List.range 80).reverse).reverse ∧
      (vergesort natLt ((List.range 80).reverse)).2.revs = 1 ∧
      (vergesort natLt ((List.range 80).reverse)).2.pdq = 0) :=
  ⟨by decide, by decide,
    vergesort_descending ((List.range 80).reverse) natLt_swo (by decide) (by decide)⟩

/-- Claim C8: for boundaries `first ≤ middle1 ≤ middle2 ≤ last` with all
three sub-ranges sorted, `inplace_merge3` produces one fully sorted range
`[first, last)` that is a permutation of the original contents and leaves the
rest of the sequence unchanged, merging the left pair first exactly when
`distance(first, middle1) < distance(middle2, last)` and the right pair
first otherwise. -/
theorem inplace_merge3_correct {compare : α → α → Bool}
    (hsw : IsStrictWeakOrder compare) (l : List α) (f m1 m2 t : Nat)
    (h1 : f ≤ m1) (h2 : m1 ≤ m2) (h3 : m2 ≤ t) (ht : t ≤ l.length)
    (s1 : (slice l f m1).Pairwise (Asc compare))
    (s2 : (slice l m1 m2).Pairwise (Asc compare))
    (s3 : (slice l m2 t).Pairwise (Asc compare)) :
    (slice (inplace_merge3 compare l f m1 m2 t) f t).Pairwise (Asc compare) ∧
    (inplace_merge3 compare l f m1 m2 t).Perm l ∧
    (inplace_merge3 compare l f m1 m2 t).take f = l.take f ∧
    (inplace_merge3 compare l f m1 m2 t).drop t = l.drop t ∧
    (m1 - f < t - m2 →
      inplace_merge3 compare l f m1 m2 t
        = inplace_merge compare (inplace_merge compare l f m1 m2) f m2 t) ∧
    (¬ (m1 - f < t - m2) →
      inplace_merge3 compare l f m1 m2 t
        = inplace_merge compare (inplace_merge compare l m1 m2 t) f m1 t) := by
  refine ⟨inplace_merge3_sorted hsw l f m1 m2 t h1 h2 h3 ht s1 s2 s3,
    inplace_merge3_perm compare l f m1 m2 t h1 h2 h3,
    inplace_merge3_take_le compare l f m1 m2 t f (le_refl f) h1 h2 h3 ht,
    inplace_merge3_drop_ge compare l f m1 m2 t t (le_refl t) h1 h2 h3 ht,
    ?_, ?_⟩
  · intro hc
    rw [inplace_merge3, if_pos hc]
  · intro hc
    rw [inplace_merge3, if_neg hc]

/-- Witness for C8 at a concrete three-way split of `[1, 3, 2, 4, 0, 5]`. -/
theorem inplace_merge3_correct_witness :
    ((slice ([1, 3, 2, 4, 0, 5] : List Nat) 0 2).Pairwise (Asc natLt) ∧
      (slice ([1, 3, 2, 4, 0, 5] : List Nat) 2 4).Pairwise (Asc natLt) ∧
      (slice ([1, 3, 2, 4, 0, 5] : List Nat) 4 6).Pairwise (Asc natLt)) ∧
    ((slice (inplace_merge3 natLt [1, 3, 2, 4, 0, 5] 0 2 4 6) 0 6).Pairwise
        (Asc natLt) ∧
      (inplace_merge3 natLt [1, 3, 2, 4, 0, 5] 0 2 4 6).Perm [1, 3, 2, 4, 0, 5] ∧
      (inplace_merge3 natLt [1, 3, 2, 4, 0, 5] 0 2 4 6).take 0
        = ([1, 3, 2, 4, 0, 5] : List Nat).take 0 ∧
      (inplace_merge3 natLt [1, 3, 2, 4, 0, 5] 0 2 4 6).drop 6
        = ([1, 3, 2, 4, 0, 5] : List Nat).drop 6 ∧
      (2 - 0 < 6 - 4 →
        inplace_merge3 natLt [1, 3, 2, 4, 0, 5] 0 2 4 6
          = inplace_merge natLt (inplace_merge natLt [1, 3, 2, 4, 0, 5] 0 2 4) 0 4 6) ∧
      (¬ (2 - 0 < 6 - 4) →
        inplace_merge3 natLt [1, 3, 2, 4, 0, 5] 0 2 4 6
          = inplace_merge natLt (inplace_merge natLt [1, 3, 2, 4, 0, 5] 2 4 6) 0 2 6)) :=
  ⟨⟨by decide, by decide, by decide⟩,
    inplace_merge3_correct natLt_swo [1, 3, 2, 4, 0, 5] 0 2 4 6 (by decide) (by decide)
      (by decide) (by decide) (by decide) (by decide) (by decide)⟩

/-- Claim C9: throughout one `vergesort` call at most one pending unstable
batch exists: the marker is the sentinel `last` or the start of the single
current batch (never past the cursor); a long run flushes the pending batch
(one fallback call, batch merged) and clears the marker before any new batch
can begin; a short run extends a pending batch without flushing and without
touching the sequence, or opens a batch at the run start if none is pending;
and a batch still pending when the scan reaches the end of the range is
sub-sorted and merged into the sorted prefix as the final step. -/
theorem vergesort_batch_policy [Inhabited α] (compare : α → α → Bool)
    (n limit : Nat) (st : VState α) :
    ((decScanAux compare st.l n n st.cur st.nxt).2 - st.cur > limit → st.bu ≠ n →
      (descPhase compare n limit st).bu = n ∧
      (descPhase compare n limit st).stats.pdq = st.stats.pdq + 1 ∧
      (descPhase compare n limit st).stats.merges = st.stats.merges + 2) ∧
    (¬ ((decScanAux compare st.l n n st.cur st.nxt).2 - st.cur > limit) →
      st.bu ≠ n →
      (descPhase compare n limit st).bu = st.bu ∧
      (descPhase compare n limit st).l = st.l ∧
      (descPhase compare n limit st).stats.pdq = st.stats.pdq ∧
      (descPhase compare n limit st).stats.merges = st.stats.merges) ∧
    (¬ ((decScanAux compare st.l n n st.cur st.nxt).2 - st.cur > limit) →
      st.bu = n →
      (descPhase compare n limit st).bu = st.cur ∧
      (descPhase compare n limit st).l = st.l ∧
      (descPhase compare n limit st).stats.pdq = st.stats.pdq ∧
      (descPhase compare n limit st).stats.merges = st.stats.merges) ∧
    ((ascScanAux compare st.l n n st.cur st.nxt).2 - st.cur > limit → st.bu ≠ n →
      (ascPhase compare n limit st).bu = n ∧
      (ascPhase compare n limit st).stats.pdq = st.stats.pdq + 1 ∧
      (ascPhase compare n limit st).stats.merges = st.stats.merges + 2) ∧
    (¬ ((ascScanAux compare st.l n n st.cur st.nxt).2 - st.cur > limit) →
      st.bu ≠ n →
      (ascPhase compare n limit st).bu = st.bu ∧
      (ascPhase compare n limit st).l = st.l ∧
      (ascPhase compare n limit st).stats.pdq = st.stats.pdq ∧
      (ascPhase compare n limit st).stats.merges = st.stats.merges) ∧
    (¬ ((ascScanAux compare st.l n n st.cur st.nxt).2 - st.cur > limit) →
      st.bu = n →
      (ascPhase compare n limit st).bu = st.cur ∧
      (ascPhase compare n limit st).l = st.l ∧
      (ascPhase compare n limit st).stats.pdq = st.stats.pdq ∧
      (ascPhase compare n limit st).stats.merges = st.stats.merges) ∧
    (BInv n st →
      ((descPhase compare n limit st).bu = n ∨
        (descPhase compare n limit st).bu ≤ st.cur) ∧
      ((ascPhase compare n limit st).bu = n ∨
        (ascPhase compare n limit st).bu ≤ st.cur)) ∧
    (∀ l2 : List α, ¬ l2.length < 80 →
      (vergeLoop compare l2.length (l2.length / log2 l2.length) (l2.length + 1)
          ⟨l2, l2.length, is_sorted_until compare l2 0 l2.length - 1,
            (is_sorted_until compare l2 0 l2.length - 1) + 1, ⟨0, 0, 0, []⟩⟩).bu
          ≠ l2.length →
      (vergesort compare l2).1
        = inplace_merge compare
            (pdqsort compare
              (vergeLoop compare l2.length (l2.length / log2 l2.length)
                (l2.length + 1)
                ⟨l2, l2.length, is_sorted_until compare l2 0 l2.length - 1,
                  (is_sorted_until compare l2 0 l2.length - 1) + 1,
                  ⟨0, 0, 0, []⟩⟩).l
              (vergeLoop compare l2.length (l2.length / log2 l2.length)
                (l2.length + 1)
                ⟨l2, l2.length, is_sorted_until compare l2 0 l2.length - 1,
                  (is_sorted_until compare l2 0 l2.length - 1) + 1,
                  ⟨0, 0, 0, []⟩⟩).bu
              l2.length)
            0
            (vergeLoop compare l2.length (l2.length / log2 l2.length) (l2.length + 1)
              ⟨l2, l2.length, is_sorted_until compare l2 0 l2.length - 1,
                (is_sorted_until compare l2 0 l2.length - 1) + 1,
                ⟨0, 0, 0, []⟩⟩).bu
            l2.length ∧
      (vergesort compare l2).2.pdq
        = (vergeLoop compare l2.length (l2.length / log2 l2.length) (l2.length + 1)
            ⟨l2, l2.length, is_sorted_until compare l2 0 l2.length - 1,
              (is_sorted_until compare l2 0 l2.length - 1) + 1,
              ⟨0, 0, 0, []⟩⟩).stats.pdq + 1 ∧
      (vergesort compare l2).2.merges
        = (vergeLoop compare l2.length (l2.length / log2 l2.length) (l2.length + 1)
            ⟨l2, l2.length, is_sorted_until compare l2 0 l2.length - 1,
              (is_sorted_until compare l2 0 l2.length - 1) + 1,
              ⟨0, 0, 0, []⟩⟩).stats.merges + 1) := by
  refine ⟨?_, ?_, ?_, ?_, ?_, ?_, ?_, ?_⟩
  · intro hlong hpend
    simp only [descPhase]
    rw [if_pos hlong, if_pos hpend]
    exact ⟨rfl, rfl, rfl⟩
  · intro hshort hpend
    simp only [descPhase]
    rw [if_neg hshort, if_neg (by simpa using hpend)]
    exact ⟨rfl, rfl, rfl, rfl⟩
  · intro hshort hsent
    simp only [descPhase]
    rw [if_neg hshort, if_pos hsent]
    exact ⟨rfl, rfl, rfl, rfl⟩
  · intro hlong hpend
    simp only [ascPhase]
    rw [if_pos hlong, if_pos hpend]
    exact ⟨rfl, rfl, rfl⟩
  · intro hshort hpend
    simp only [ascPhase]
    rw [if_neg hshort, if_neg (by simpa using hpend)]
    exact ⟨rfl, rfl, rfl, rfl⟩
  · intro hshort hsent
    simp only [ascPhase]
    rw [if_neg hshort, if_pos hsent]
    exact ⟨rfl, rfl, rfl, rfl⟩
  · intro hB
    exact ⟨(descPhase_basic compare n limit st hB.1 hB.2.1 hB.2.2.1 hB.2.2.2).2.2.2.2.1,
      (ascPhase_basic compare n limit st hB.1 hB.2.1 hB.2.2.1 hB.2.2.2).2.2.2.2.1⟩
  · intro l2 h80 hbu
    simp only [vergesort]
    rw [if_neg h80, if_pos hbu]
    exact ⟨rfl, rfl, rfl⟩

/-- Witness for C9: a pending batch (marker 0) and a long decreasing run on a
concrete six-element state is flushed — marker cleared to the sentinel, one
fallback call, two merge calls. -/
theorem vergesort_batch_policy_witness :
    ((decScanAux natLt ([5, 4, 3, 2, 1, 0] : List Nat) 6 6 1 2).2 - 1 > 1) ∧
    ((0 : Nat) ≠ 6) ∧
    ((descPhase natLt 6 1 ⟨[5, 4, 3, 2, 1, 0], 0, 1, 2, ⟨0, 0, 0, []⟩⟩).bu = 6 ∧
      (descPhase natLt 6 1
        ⟨[5, 4, 3, 2, 1, 0], 0, 1, 2, ⟨0, 0, 0, []⟩⟩).stats.pdq = 0 + 1 ∧
      (descPhase natLt 6 1
        ⟨[5, 4, 3, 2, 1, 0], 0, 1, 2, ⟨0, 0, 0, []⟩⟩).stats.merges = 0 + 2) :=
  ⟨by decide, by decide,
    (vergesort_batch_policy natLt 6 1 ⟨[5, 4, 3, 2, 1, 0], 0, 1, 2, ⟨0, 0, 0, []⟩⟩).1
      (by decide) (by decide)⟩

/-- Claim C10: the implicit invariant of the main scan — at the start of
every run detection the prefix up to `begin_unstable` (batch pending) or up
to the start of the run being detected (no batch) is sorted — holds at the
state handed to the in-iteration increasing-run detection, is preserved by a
full loop iteration, and at a loop exit yields a sorted prefix up to `n`
(marker clear) or up to the pending batch start. -/
theorem vergesort_loop_invariant [Inhabited α] {compare : α → α → Bool}
    (hsw : IsStrictWeakOrder compare) (n limit : Nat) (st : VState α)
    (hS : SInv compare n st) :
    ((descPhase compare n limit st).nxt ≠ n →
      SInv compare n
        { descPhase compare n limit st with
          cur := (descPhase compare n limit st).cur + 1,
          nxt := (descPhase compare n limit st).nxt + 1 }) ∧
    (∀ st2, vergeIter compare n limit st = Sum.inl st2 → SInv compare n st2) ∧
    (∀ stF, vergeIter compare n limit st = Sum.inr stF →
      (stF.bu = n → (slice stF.l 0 n).Pairwise (Asc compare)) ∧
      (stF.bu ≠ n → (slice stF.l 0 stF.bu).Pairwise (Asc compare))) := by
  obtain ⟨⟨hlen, hcn, hnn, hbu⟩, hso1, hso2⟩ := hS
  have hd := descPhase_basic compare n limit st hlen hcn hnn hbu
  have hds := descPhase_sorted hsw n limit st hlen hcn hnn hbu hso1 hso2
  have hiter := vergeIter_sorted hsw n limit st ⟨⟨hlen, hcn, hnn, hbu⟩, hso1, hso2⟩
  refine ⟨?_, hiter.1, hiter.2⟩
  intro hne
  obtain ⟨hd1, hd2, hd3, hd4, hd5, _⟩ := hd
  refine ⟨⟨hd1, by simp; omega, by simp; omega, ?_⟩, ?_, ?_⟩
  · rcases hd5 with h | h
    · exact .inl h
    · refine .inr ?_
      simp
      omega
  · intro hb
    simp only [] at hb ⊢
    have := hds.1 hb
    rwa [← hd2] at this
  · intro hb
    simp only [] at hb ⊢
    exact hds.2 hb

/-- Witness for C10 at a concrete state: the invariant holds before and after
the decreasing-run detection on `[1, 2, 0, 3]`. -/
theorem vergesort_loop_invariant_witness :
    SInv natLt 4 ⟨[1, 2, 0, 3], 4, 2, 3, ⟨0, 0, 0, []⟩⟩ ∧
    ((descPhase natLt 4 1 ⟨[1, 2, 0, 3], 4, 2, 3, ⟨0, 0, 0, []⟩⟩).nxt ≠ 4) ∧
    SInv natLt 4
      { descPhase natLt 4 1 ⟨[1, 2, 0, 3], 4, 2, 3, ⟨0, 0, 0, []⟩⟩ with
        cur := (descPhase natLt 4 1 ⟨[1, 2, 0, 3], 4, 2, 3, ⟨0, 0, 0, []⟩⟩).cur + 1,
        nxt := (descPhase natLt 4 1 ⟨[1, 2, 0, 3], 4, 2, 3, ⟨0, 0, 0, []⟩⟩).nxt + 1 } :=
  ⟨by decide, by decide,
    (vergesort_loop_invariant natLt_swo 4 1 ⟨[1, 2, 0, 3], 4, 2, 3, ⟨0, 0, 0, []⟩⟩
      (by decide)).1 (by decide)⟩

end Vergesort
